import Mathlib

/-!
# Disruptor: ring buffer, claim strategy, wait strategies, consumer loop, engine

A shallow embedding of the C++ headers under `include/disruptor/`.

* `size_t` values are natural numbers below `2 ^ 64`; decrement, increment and
  subtraction on them are taken modulo `2 ^ 64`.
* `int64_t` values are integers; every `int64_t` addition is wrapped to the
  two's-complement range by `wrapI64`, and an `int64_t` meeting a `size_t`
  operand is first converted by `toU64`.
* A `Sequence` is represented by the integer it holds; a `Sequence*` held by
  the engine is the index of the consumer owning it; a `T&` into the ring
  buffer is the index of the slot in `entries_`.
* Loops that poll other threads (`waitFor`, `nextEntry`) run over the list of
  snapshots they read, one per iteration, and return `none` when the list is
  used up before the loop has returned.
-/

namespace disruptor

/-! ## Machine integers -/

/-- Largest `int64_t`, `std::numeric_limits<int64_t>::max()`. -/
def INT64_MAX : Int := 2 ^ 63 - 1

/-- Reduction of an integer to the `int64_t` range (two's complement). -/
def wrapI64 (x : Int) : Int := (x + 2 ^ 63) % 2 ^ 64 - 2 ^ 63

/-- Conversion of an `int64_t` to `uint64_t` / `size_t`. -/
def toU64 (x : Int) : Nat := (x % 2 ^ 64).toNat

/-- Decrement of a `size_t`; zero wraps to `2 ^ 64 - 1`. -/
def decU64 (v : Nat) : Nat := if v = 0 then 2 ^ 64 - 1 else v - 1

/-- Increment of a `size_t`; `2 ^ 64 - 1` wraps to zero. -/
def incU64 (v : Nat) : Nat := (v + 1) % 2 ^ 64

/-! ## sequence.h -/

/-- Acquire load of a `Sequence`, `Sequence::get`. -/
def Sequence.get (value_ : Int) : Int := value_

/-- Release store, `Sequence::set`: the new stored value. -/
def Sequence.set (_value_ : Int) (value : Int) : Int := value

/-- Monotonic store, `Sequence::setMonotonic`, run without interference: the
compare-exchange loop is entered only when `value > current` and then stores
`value`. The result is the new stored value. -/
def Sequence.setMonotonic (value_ : Int) (value : Int) : Int :=
  let current := value_
  if value > current then value else current

/-- Method `Sequence::addAndGet(increment)`, run without interference: the value
returned, `fetch_add(increment) + increment`, and the new stored value, both
within `int64_t`. -/
def Sequence.addAndGet (value_ : Int) (increment : Int) : Int × Int :=
  (wrapI64 (value_ + increment), wrapI64 (value_ + increment))

/-! ## ring_buffer.h -/

/-- Caller-supplied entry factory: `construct` gives the value placed in a
fresh slot and `reset` the value of a slot after it is prepared for a write. -/
structure EntryFactory (T : Type) where
  construct : T
  reset : T → T

/-- The factory `DefaultEntryFactory<T>`: value-initialised slots, `reset` does
nothing. -/
def DefaultEntryFactory (T : Type) [Inhabited T] : EntryFactory T :=
  { construct := default, reset := fun t => t }

/-- Bit smearing and increment of `RingBuffer::roundUpToPowerOfTwo` on a
`size_t` argument. -/
def roundUpToPowerOfTwo (v : Nat) : Nat :=
  let v := decU64 v
  let v := v ||| (v >>> 1)
  let v := v ||| (v >>> 2)
  let v := v ||| (v >>> 4)
  let v := v ||| (v >>> 8)
  let v := v ||| (v >>> 16)
  let v := v ||| (v >>> 32)
  incU64 v

/-- State of a `RingBuffer<T>`: the rounded size, the index mask, the slots and
the cursor value. -/
structure RingBuffer (T : Type) where
  buffer_size_ : Nat
  index_mask_ : Nat
  entries_ : List T
  cursor_ : Int
  entry_factory_ : EntryFactory T

/-- Constructor `RingBuffer::RingBuffer(size, entry_factory)`. -/
def RingBuffer.new {T : Type} (size : Nat) (entry_factory : EntryFactory T) :
    RingBuffer T :=
  let buffer_size := roundUpToPowerOfTwo size
  { buffer_size_ := buffer_size
    index_mask_ := decU64 buffer_size
    entries_ := List.replicate buffer_size entry_factory.construct
    cursor_ := -1
    entry_factory_ := entry_factory }

/-- Accessor `RingBuffer::getBufferSize`. -/
def RingBuffer.getBufferSize {T : Type} (rb : RingBuffer T) : Nat := rb.buffer_size_

/-- Slot reference returned by `RingBuffer::get(sequence)`: the index
`sequence & index_mask_` passed to `entryPointer`, the sequence being converted
to unsigned for the bitwise and. -/
def RingBuffer.get {T : Type} (rb : RingBuffer T) (sequence : Int) : Nat :=
  toU64 sequence &&& rb.index_mask_

/-- Method `RingBuffer::prepareForWrite`: the factory's `reset` applied to the
slot of `sequence`. -/
def RingBuffer.prepareForWrite {T : Type} (rb : RingBuffer T) (sequence : Int) :
    RingBuffer T :=
  { rb with entries_ := rb.entries_.modify rb.entry_factory_.reset (rb.get sequence) }

/-- Method `RingBuffer::publish(sequence)`. -/
def RingBuffer.publish {T : Type} (rb : RingBuffer T) (sequence : Int) : RingBuffer T :=
  { rb with cursor_ := Sequence.setMonotonic rb.cursor_ sequence }

/-- Method `RingBuffer::publish(lo, hi)`; the low bound is not used. -/
def RingBuffer.publishRange {T : Type} (rb : RingBuffer T) (_lo hi : Int) : RingBuffer T :=
  { rb with cursor_ := Sequence.setMonotonic rb.cursor_ hi }

/-! ## claim_strategy.h -/

/-- The scan shared by the `getMinimumSequence` functions: every value read
that is below the running minimum replaces it. -/
def minimumLoop : Int → List Int → Int
  | minimum, [] => minimum
  | minimum, value :: rest => minimumLoop (if value < minimum then value else minimum) rest

/-- State of a `SingleThreadedClaimStrategy`. -/
structure SingleThreadedClaimStrategy where
  buffer_size_ : Nat
  next_value_ : Int
  cached_value_ : Int
  deriving DecidableEq

/-- Constructor `SingleThreadedClaimStrategy(buffer_size)`. -/
def SingleThreadedClaimStrategy.new (buffer_size : Nat) : SingleThreadedClaimStrategy :=
  { buffer_size_ := buffer_size, next_value_ := -1, cached_value_ := -1 }

/-- Method `SingleThreadedClaimStrategy::next(n)`: the returned sequence and the
new state. -/
def SingleThreadedClaimStrategy.next (cs : SingleThreadedClaimStrategy) (n : Int) :
    Int × SingleThreadedClaimStrategy :=
  let next_value := wrapI64 (cs.next_value_ + n)
  (next_value, { cs with next_value_ := next_value })

/-- Private `SingleThreadedClaimStrategy::getMinimumSequence(dependents)` over
the values read from the dependents. -/
def SingleThreadedClaimStrategy.getMinimumSequence (dependents : List Int) : Int :=
  minimumLoop INT64_MAX dependents

/-- The value of `next_value_ + required_capacity - buffer_size_` stored in the
`int64_t wrap_point`: a signed addition, then an unsigned subtraction of the
`size_t` buffer size, converted back to signed. -/
def SingleThreadedClaimStrategy.wrapPoint (cs : SingleThreadedClaimStrategy)
    (required_capacity : Int) : Int :=
  wrapI64 ((toU64 (wrapI64 (cs.next_value_ + required_capacity)) : Int) - (cs.buffer_size_ : Int))

/-- Method `SingleThreadedClaimStrategy::hasAvailableCapacity`: the answer and
the new state, `dependents` being the values the gating sequences hold. -/
def SingleThreadedClaimStrategy.hasAvailableCapacity (cs : SingleThreadedClaimStrategy)
    (required_capacity : Int) (dependents : List Int) : Bool × SingleThreadedClaimStrategy :=
  let wrap_point := cs.wrapPoint required_capacity
  if wrap_point > cs.cached_value_ then
    let min_sequence := SingleThreadedClaimStrategy.getMinimumSequence dependents
    let cs1 := { cs with cached_value_ := min_sequence }
    if wrap_point > min_sequence then (false, cs1) else (true, cs1)
  else (true, cs)

/-- State of a `MultiThreadedClaimStrategy`: the buffer size and the value of
its `sequence_`. -/
structure MultiThreadedClaimStrategy where
  buffer_size_ : Nat
  sequence_ : Int
  deriving DecidableEq

/-- Constructor `MultiThreadedClaimStrategy(buffer_size)`. -/
def MultiThreadedClaimStrategy.new (buffer_size : Nat) : MultiThreadedClaimStrategy :=
  { buffer_size_ := buffer_size, sequence_ := -1 }

/-- Method `MultiThreadedClaimStrategy::next(n)`: the returned sequence and the
new state. -/
def MultiThreadedClaimStrategy.next (ms : MultiThreadedClaimStrategy) (n : Int) :
    Int × MultiThreadedClaimStrategy :=
  let r := Sequence.addAndGet ms.sequence_ n
  (r.1, { ms with sequence_ := r.2 })

/-- Private `MultiThreadedClaimStrategy::getMinimumSequence(dependents)` over the
values read from the dependents. -/
def MultiThreadedClaimStrategy.getMinimumSequence (dependents : List Int) : Int :=
  minimumLoop INT64_MAX dependents

/-- Method `MultiThreadedClaimStrategy::hasAvailableCapacity`: the gating values
are read on every call and nothing is stored. -/
def MultiThreadedClaimStrategy.hasAvailableCapacity (ms : MultiThreadedClaimStrategy)
    (required_capacity : Int) (dependents : List Int) : Bool :=
  let current := Sequence.get ms.sequence_
  let wrap_point :=
    wrapI64 ((toU64 (wrapI64 (current + required_capacity)) : Int) - (ms.buffer_size_ : Int))
  let min_sequence := MultiThreadedClaimStrategy.getMinimumSequence dependents
  decide (wrap_point ≤ min_sequence)

/-! ## producer_barrier.h -/

/-- Method `ProducerBarrier::nextEntry(n)` on the claim strategy it points to.
Each element of the list is the gating values as one evaluation of the loop
condition reads them; the result is `none` while the loop is still yielding. -/
def ProducerBarrier.nextEntry (n : Int) :
    SingleThreadedClaimStrategy → List (List Int) → Option Int × SingleThreadedClaimStrategy
  | cs, [] => (none, cs)
  | cs, gating :: later =>
    let r := cs.hasAvailableCapacity n gating
    if r.1 then
      let c := r.2.next n
      (some c.1, c.2)
    else ProducerBarrier.nextEntry n r.2 later

/-- Method `ProducerBarrier::getEntry(sequence)` on the ring buffer it points
to: `prepareForWrite`, then `get`. The result is the slot reference and the new
state of the ring buffer. -/
def ProducerBarrier.getEntry {T : Type} (rb : RingBuffer T) (sequence : Int) :
    Nat × RingBuffer T :=
  let rb1 := rb.prepareForWrite sequence
  (rb1.get sequence, rb1)

/-- Method `ProducerBarrier::commit(sequence)` on the ring buffer it points to. -/
def ProducerBarrier.commit {T : Type} (rb : RingBuffer T) (sequence : Int) : RingBuffer T :=
  rb.publish sequence

/-- Method `ProducerBarrier::commit(lo, hi)` on the ring buffer it points to. -/
def ProducerBarrier.commitRange {T : Type} (rb : RingBuffer T) (lo hi : Int) :
    RingBuffer T :=
  rb.publishRange lo hi

/-- Producer side of the pipeline: the claim strategy and the values currently
held by the gating sequences. -/
structure ProducerState where
  claim : SingleThreadedClaimStrategy
  gating : List Int
  deriving DecidableEq

/-- One step of the producer side: a gating sequence advances, a capacity check
of `nextEntry(n)` is refused, or it is granted and `next(n)` runs. -/
inductive ProducerStep : ProducerState → ProducerState → Prop
  | advance (st : ProducerState) (gating1 : List Int) :
      List.Forall₂ (fun old new => old ≤ new) st.gating gating1 →
      (∀ v ∈ gating1, v ≤ INT64_MAX) →
      ProducerStep st { st with gating := gating1 }
  | refused (st : ProducerState) (n : Int) :
      1 ≤ n → (st.claim.hasAvailableCapacity n st.gating).1 = false →
      ProducerStep st { st with claim := (st.claim.hasAvailableCapacity n st.gating).2 }
  | granted (st : ProducerState) (n : Int) :
      1 ≤ n → (st.claim.hasAvailableCapacity n st.gating).1 = true →
      ProducerStep st
        { st with claim := ((st.claim.hasAvailableCapacity n st.gating).2.next n).2 }

/-- States the producer side reaches from a fresh claim strategy of the given
capacity and `consumers + 1` gating sequences, all at `-1`. -/
inductive ProducerReachable (capacity consumers : Nat) : ProducerState → Prop
  | init : ProducerReachable capacity consumers
      { claim := SingleThreadedClaimStrategy.new capacity
        gating := List.replicate (consumers + 1) (-1) }
  | step (st st1 : ProducerState) :
      ProducerReachable capacity consumers st → ProducerStep st st1 →
      ProducerReachable capacity consumers st1

/-! ## sequence_group.h -/

/-- Free function `getMinimumSequence(cursor, dependents)`. The cursor is `none`
for a null pointer and otherwise the value read from it; `dependents` are the
values read from the dependent sequences. -/
def getMinimumSequence (cursor : Option Int) (dependents : List Int) : Int :=
  let minimum := match cursor with
    | some value => value
    | none => INT64_MAX
  minimumLoop minimum dependents

/-! ## wait_strategy.h -/

/-- Method `BusySpinWaitStrategy::waitFor`. Each element of the list is what one
iteration reads from the cursor and from the dependents; the result is `none`
while the loop is still spinning. -/
def BusySpinWaitStrategy.waitFor (sequence : Int) :
    List (Option Int × List Int) → Option Int
  | [] => none
  | (cursor, dependents) :: later =>
    let available := getMinimumSequence cursor dependents
    if available ≥ sequence then some available
    else BusySpinWaitStrategy.waitFor sequence later

/-- Loop of `YieldingWaitStrategy::waitFor` from a given value of `spin_tries`;
after more than 100 unsuccessful tries the thread yields and the count restarts. -/
def YieldingWaitStrategy.waitLoop (sequence : Int) :
    Int → List (Option Int × List Int) → Option Int
  | _, [] => none
  | spin_tries, (cursor, dependents) :: later =>
    let available := getMinimumSequence cursor dependents
    if available ≥ sequence then some available
    else if spin_tries + 1 > 100 then YieldingWaitStrategy.waitLoop sequence 0 later
    else YieldingWaitStrategy.waitLoop sequence (spin_tries + 1) later

/-- Method `YieldingWaitStrategy::waitFor`. -/
def YieldingWaitStrategy.waitFor (sequence : Int)
    (reads : List (Option Int × List Int)) : Option Int :=
  YieldingWaitStrategy.waitLoop sequence 0 reads

/-- The enumeration `Disruptor::WaitStrategyType`, which also stands for the
wait strategy object it selects. -/
inductive WaitStrategyType where
  | BUSY_SPIN
  | YIELDING
  deriving DecidableEq

/-- Virtual call `WaitStrategy::waitFor`. -/
def WaitStrategy.waitFor (ws : WaitStrategyType) (sequence : Int)
    (reads : List (Option Int × List Int)) : Option Int :=
  match ws with
  | WaitStrategyType.BUSY_SPIN => BusySpinWaitStrategy.waitFor sequence reads
  | WaitStrategyType.YIELDING => YieldingWaitStrategy.waitFor sequence reads

/-! ## consumer_barrier.h -/

/-- Method `ConsumerBarrier::waitFor`: the wait strategy is called with the
ring buffer's cursor, which is never null, and the barrier's dependents. Each
element of the list is the cursor value and the dependent values one iteration
reads. -/
def ConsumerBarrier.waitFor (wait_strategy : WaitStrategyType) (sequence : Int)
    (reads : List (Int × List Int)) : Option Int :=
  WaitStrategy.waitFor wait_strategy sequence (reads.map fun o => (some o.1, o.2))

/-- Method `ConsumerBarrier::getEntry`: the slot reference from the ring buffer. -/
def ConsumerBarrier.getEntry {T : Type} (rb : RingBuffer T) (sequence : Int) : Nat :=
  rb.get sequence

/-! ## batch_handler.h and consumer.h -/

/-- One invocation `handler_->onAvailable(entry, sequence, end_of_batch)`; the
entry is given by the slot it refers to. -/
structure HandlerCall where
  slot : Nat
  sequence : Int
  end_of_batch : Bool
  deriving DecidableEq

/-- The `BatchHandler<T>` as the consumer loop meets it: whether a given
invocation of `onAvailable` throws. -/
structure BatchHandler where
  throws : HandlerCall → Bool

/-- State of a `Consumer` together with the history of its calls: the
consumer's sequence, the arguments of its calls to `barrier_->waitFor` so far,
the invocations of `onAvailable` so far, both in order, and the number of
invocations of `onCompletion`. -/
structure Consumer where
  sequence_ : Int
  waits : List Int
  calls : List HandlerCall
  completions : Nat
  deriving DecidableEq

/-- A consumer as constructed: sequence `-1`, nothing called yet. -/
def Consumer.new : Consumer :=
  { sequence_ := -1, waits := [], calls := [], completions := 0 }

/-- Accessor `Consumer::getSequence`, read through `Sequence::get`. -/
def Consumer.getSequence (c : Consumer) : Int := Sequence.get c.sequence_

/-- Outcome of the inner loop of `Consumer::run`. -/
inductive Delivery where
  | done (next_sequence : Int) (calls : List HandlerCall)
  | thrown (calls : List HandlerCall)
  deriving DecidableEq

/-- Inner loop `while (next_sequence <= available)` of `Consumer::run`, bounded
by a number of iterations: `none` when the bound is used up with the loop
condition still true. The invocation that throws is recorded. -/
def Consumer.deliver {T : Type} (rb : RingBuffer T) (handler : BatchHandler)
    (available : Int) : Nat → Int → List HandlerCall → Option Delivery
  | 0, next_sequence, calls =>
    if next_sequence ≤ available then none else some (Delivery.done next_sequence calls)
  | fuel + 1, next_sequence, calls =>
    if next_sequence ≤ available then
      let entry := ConsumerBarrier.getEntry rb next_sequence
      let end_of_batch := decide (next_sequence = available)
      let call : HandlerCall :=
        { slot := entry, sequence := next_sequence, end_of_batch := end_of_batch }
      if handler.throws call then some (Delivery.thrown (calls ++ [call]))
      else Consumer.deliver rb handler available fuel (wrapI64 (next_sequence + 1))
        (calls ++ [call])
    else some (Delivery.done next_sequence calls)

/-- Outer loop `while (running_)` of `Consumer::run`. The list holds, for each
iteration that found `running_` true, the value `barrier_->waitFor` returned;
the loop ends when the list is used up (`running_` read false) or the handler
throws. The inner loop is given `available - next_sequence + 1` iterations. -/
def Consumer.runLoop {T : Type} (rb : RingBuffer T) (handler : BatchHandler) :
    Int → Consumer → List Int → Option Consumer
  | _, c, [] => some c
  | next_sequence, c, available :: later =>
    match Consumer.deliver rb handler available (available - next_sequence + 1).toNat
        next_sequence c.calls with
    | none => none
    | some (Delivery.thrown calls) =>
      some { c with waits := c.waits ++ [next_sequence], calls := calls }
    | some (Delivery.done next1 calls) =>
      Consumer.runLoop rb handler next1
        { c with waits := c.waits ++ [next_sequence], calls := calls,
                 sequence_ := Sequence.set c.sequence_ available } later

/-- Method `Consumer::run`: the loop, then `handler_->onCompletion()`. -/
def Consumer.run {T : Type} (rb : RingBuffer T) (handler : BatchHandler)
    (results : List Int) (c : Consumer) : Option Consumer :=
  let next_sequence := wrapI64 (Sequence.get c.sequence_ + 1)
  match Consumer.runLoop rb handler next_sequence c results with
  | none => none
  | some c1 => some { c1 with completions := c1.completions + 1 }

/-! ## Cursor and consumer sequences as a transition system -/

/-- Shared state of a running pipeline: the ring buffer's cursor, the sequence
of every consumer, and for a consumer that is between the return of `waitFor`
and `sequence_.set(available)` the value `available` it holds. -/
structure PipelineState where
  cursor : Int
  sequences : Nat → Int
  pending : Nat → Option Int

/-- State of a pipeline before anything is published. -/
def PipelineState.init : PipelineState :=
  { cursor := -1, sequences := fun _ => -1, pending := fun _ => none }

/-- One step of a running pipeline whose consumer `i` has the consumers
`dependencies i` as dependents of its barrier: the producer publishes, the
`waitFor` of a consumer returns on a reading of the current state, or a consumer
ends its round with `sequence_.set(available)`. -/
inductive PipelineStep (wait_strategy : WaitStrategyType) (dependencies : Nat → List Nat) :
    PipelineState → PipelineState → Prop
  | publish (st : PipelineState) (sequence : Int) :
      PipelineStep wait_strategy dependencies st
        { st with cursor := Sequence.setMonotonic st.cursor sequence }
  | waitReturn (st : PipelineState) (i : Nat) (target available : Int) :
      ConsumerBarrier.waitFor wait_strategy target
        [(st.cursor, (dependencies i).map st.sequences)] = some available →
      PipelineStep wait_strategy dependencies st
        { st with pending := Function.update st.pending i (some available) }
  | store (st : PipelineState) (i : Nat) (available : Int) :
      st.pending i = some available →
      PipelineStep wait_strategy dependencies st
        { st with sequences :=
                    Function.update st.sequences i (Sequence.set (st.sequences i) available),
                  pending := Function.update st.pending i none }

/-- States a pipeline reaches from its initial state. -/
inductive PipelineReachable (wait_strategy : WaitStrategyType)
    (dependencies : Nat → List Nat) : PipelineState → Prop
  | init : PipelineReachable wait_strategy dependencies PipelineState.init
  | step (st st1 : PipelineState) :
      PipelineReachable wait_strategy dependencies st →
      PipelineStep wait_strategy dependencies st st1 →
      PipelineReachable wait_strategy dependencies st1

/-! ## disruptor.h -/

/-- The enumeration `Disruptor::ClaimStrategyType`. -/
inductive ClaimStrategyType where
  | SINGLE_THREADED
  | MULTI_THREADED
  deriving DecidableEq

/-- Data of a `ProducerBarrier` beside its pointers to the ring buffer and the
claim strategy: its own copy of the gating sequences, each given by the index
of the consumer that owns it. -/
structure ProducerBarrier where
  gating_sequences_ : List Nat
  deriving DecidableEq

/-- Data of a `ConsumerBarrier` beside its pointers to the ring buffer, the
wait strategy and the cursor: the dependent sequences, each given by the index
of the consumer that owns it. -/
structure ConsumerBarrier where
  dependent_sequences_ : List Nat
  deriving DecidableEq

/-- State of a `Disruptor<T>`. A null `producer_barrier_` is `none`. -/
structure Disruptor (T : Type) where
  ring_buffer_ : RingBuffer T
  claim_strategy_ : SingleThreadedClaimStrategy
  wait_strategy_ : WaitStrategyType
  producer_barrier_ : Option ProducerBarrier
  consumers_ : List Consumer
  consumer_barriers_ : List ConsumerBarrier
  gating_sequences_ : List Nat

/-- Constructor `Disruptor::Disruptor`: the ring buffer is built first, then the
claim strategy is chosen, which throws `std::logic_error` for `MULTI_THREADED`,
then the wait strategy. -/
def Disruptor.new {T : Type} (buffer_size : Nat) (claim_type : ClaimStrategyType)
    (wait_type : WaitStrategyType) (entry_factory : EntryFactory T) :
    Except String (Disruptor T) :=
  let ring_buffer := RingBuffer.new buffer_size entry_factory
  if claim_type = ClaimStrategyType.SINGLE_THREADED then
    let claim_strategy := SingleThreadedClaimStrategy.new ring_buffer.getBufferSize
    let wait_strategy :=
      if wait_type = WaitStrategyType.BUSY_SPIN then WaitStrategyType.BUSY_SPIN
      else WaitStrategyType.YIELDING
    Except.ok
      { ring_buffer_ := ring_buffer
        claim_strategy_ := claim_strategy
        wait_strategy_ := wait_strategy
        producer_barrier_ := none
        consumers_ := []
        consumer_barriers_ := []
        gating_sequences_ := [] }
  else
    Except.error ("Multi-producer publishing is not fully ordered in this implementation. " ++
      "Use SINGLE_THREADED claim strategy.")

/-- Method `Disruptor::getProducerBarrier`: the barrier is built on the first
call, from a copy of `gating_sequences_` as it is then, and the same barrier is
returned by every call. -/
def Disruptor.getProducerBarrier {T : Type} (d : Disruptor T) :
    ProducerBarrier × Disruptor T :=
  match d.producer_barrier_ with
  | none =>
    let producer_barrier : ProducerBarrier := { gating_sequences_ := d.gating_sequences_ }
    (producer_barrier, { d with producer_barrier_ := some producer_barrier })
  | some producer_barrier => (producer_barrier, d)

/-- Method `Disruptor::createConsumer`: returns the index of the new consumer,
which is also the name of its sequence. -/
def Disruptor.createConsumer {T : Type} (d : Disruptor T) (_handler : BatchHandler)
    (dependencies : List Nat) : Nat × Disruptor T :=
  let consumer_barrier : ConsumerBarrier := { dependent_sequences_ := dependencies }
  let consumer := Consumer.new
  let consumer_ptr := d.consumers_.length
  (consumer_ptr,
    { d with gating_sequences_ := d.gating_sequences_ ++ [consumer_ptr]
             consumers_ := d.consumers_ ++ [consumer]
             consumer_barriers_ := d.consumer_barriers_ ++ [consumer_barrier] })

/-- A call made on the engine before `start`. -/
inductive SetupCall where
  | createConsumer (handler : BatchHandler) (dependencies : List Nat)
  | getProducerBarrier

/-- The engine after a sequence of calls made before `start`. -/
def Disruptor.setup {T : Type} : Disruptor T → List SetupCall → Disruptor T
  | d, [] => d
  | d, SetupCall.createConsumer handler dependencies :: later =>
    Disruptor.setup (d.createConsumer handler dependencies).2 later
  | d, SetupCall.getProducerBarrier :: later =>
    Disruptor.setup d.getProducerBarrier.2 later

/-! ## Producer operations on the engine -/

/-- One operation of the producer through the `ProducerBarrier` of an engine.
A call of `nextEntry(n)` is taken with `n ≥ 1` and `next_value_ + n` within
`int64_t`; its effect on the claim strategy is the same whether it has returned
or is still waiting. A commit is taken for a sequence already assigned. -/
inductive BarrierStep {T : Type} : Disruptor T → Disruptor T → Prop
  | nextEntry (d : Disruptor T) (n : Int) (reads : List (List Int)) :
      1 ≤ n → d.claim_strategy_.next_value_ + n ≤ INT64_MAX →
      BarrierStep d
        { d with claim_strategy_ := (ProducerBarrier.nextEntry n d.claim_strategy_ reads).2 }
  | getEntry (d : Disruptor T) (sequence : Int) :
      BarrierStep d
        { d with ring_buffer_ := (ProducerBarrier.getEntry d.ring_buffer_ sequence).2 }
  | commit (d : Disruptor T) (sequence : Int) :
      sequence ≤ d.claim_strategy_.next_value_ →
      BarrierStep d { d with ring_buffer_ := ProducerBarrier.commit d.ring_buffer_ sequence }
  | commitRange (d : Disruptor T) (lo hi : Int) :
      hi ≤ d.claim_strategy_.next_value_ →
      BarrierStep d
        { d with ring_buffer_ := ProducerBarrier.commitRange d.ring_buffer_ lo hi }

/-- Engine states reached from `d0` by producer operations. -/
inductive BarrierReachable {T : Type} (d0 : Disruptor T) : Disruptor T → Prop
  | init : BarrierReachable d0 d0
  | step (d d1 : Disruptor T) :
      BarrierReachable d0 d → BarrierStep d d1 → BarrierReachable d0 d1

/-! ## examples/demo.cpp -/

/-- One iteration of the publishing loop of `runBenchmark`: `nextEntry()`,
`getEntry(sequence)`, the write of the event into the slot, `commit(sequence)`.
The list holds the gating values read by the capacity checks of `nextEntry`;
the result is `none` while `nextEntry` is still waiting, and otherwise the
claimed sequence and the new state of the engine. -/
def producerCycle {T : Type} (d : Disruptor T) (event : T) (reads : List (List Int)) :
    Option (Int × Disruptor T) :=
  let r := ProducerBarrier.nextEntry 1 d.claim_strategy_ reads
  match r.1 with
  | none => none
  | some sequence =>
    let e := ProducerBarrier.getEntry d.ring_buffer_ sequence
    let written := { e.2 with entries_ := e.2.entries_.set e.1 event }
    some (sequence,
      { d with claim_strategy_ := r.2
               ring_buffer_ := ProducerBarrier.commit written sequence })

/-- The publishing loop of `runBenchmark` over the events to write, each with
the gating values its `nextEntry` reads: the sequences claimed, in order, and
the final state of the engine. -/
def producerCycles {T : Type} :
    Disruptor T → List (T × List (List Int)) → Option (List Int × Disruptor T)
  | d, [] => some ([], d)
  | d, (event, reads) :: later =>
    match producerCycle d event reads with
    | none => none
    | some (sequence, d1) =>
      match producerCycles d1 later with
      | none => none
      | some (sequences, d2) => some (sequence :: sequences, d2)

/-! ## Worker loop of the specification -/

/-- Step 3 of the specification's worker loop: for each `s` of the range, fetch
the entry and invoke `onAvailable(entry, s, endOfBatch = (s == available))`. An
exception of the handler ends the iteration; the invocations made are returned
on either side. -/
def Consumer.specForEach {T : Type} (rb : RingBuffer T) (handler : BatchHandler)
    (available : Int) : List Int → List HandlerCall → Except (List HandlerCall) (List HandlerCall)
  | [], calls => Except.ok calls
  | s :: later, calls =>
    let call : HandlerCall :=
      { slot := ConsumerBarrier.getEntry rb s, sequence := s, end_of_batch := decide (s = available) }
    if handler.throws call then Except.error (calls ++ [call])
    else Consumer.specForEach rb handler available later (calls ++ [call])

/-- The specification's worker loop, steps 1 to 5: `nextSequence` is recomputed
as `self.sequence.get() + 1` at the start of every iteration. The list holds
the results of `waitFor`, one for each iteration that runs. -/
def Consumer.specLoop {T : Type} (rb : RingBuffer T) (handler : BatchHandler) :
    Consumer → List Int → Consumer
  | c, [] => c
  | c, available :: later =>
    let nextSequence := Sequence.get c.sequence_ + 1
    let range := (List.range (available - nextSequence + 1).toNat).map
      fun i : Nat => nextSequence + (i : Int)
    match Consumer.specForEach rb handler available range c.calls with
    | Except.error calls => { c with waits := c.waits ++ [nextSequence], calls := calls }
    | Except.ok calls =>
      Consumer.specLoop rb handler
        { c with waits := c.waits ++ [nextSequence], calls := calls,
                 sequence_ := Sequence.set c.sequence_ available } later

/-- The specification's worker: the loop, then `onCompletion` once. -/
def Consumer.specRun {T : Type} (rb : RingBuffer T) (handler : BatchHandler)
    (results : List Int) (c : Consumer) : Consumer :=
  let c1 := Consumer.specLoop rb handler c results
  { c1 with completions := c1.completions + 1 }

/-! ## Bit smearing -/

/-- Bits of one smearing step. -/
theorem testBit_or_shiftRight (w k i : Nat) :
    (w ||| (w >>> k)).testBit i = (w.testBit i || w.testBit (k + i)) := by
  rw [Nat.testBit_or, Nat.testBit_shiftRight]

/-- A number whose bit `i` is the disjunction of the bits `i .. i + n - 1` of
`v`, once smeared by `n`, covers the bits `i .. i + 2 n - 1`. -/
theorem smear_window (v w n : Nat)
    (h : ∀ i, w.testBit i = true ↔ ∃ j, i ≤ j ∧ j < i + n ∧ v.testBit j = true) (i : Nat) :
    (w ||| (w >>> n)).testBit i = true ↔
      ∃ j, i ≤ j ∧ j < i + (n + n) ∧ v.testBit j = true := by
  rw [testBit_or_shiftRight, Bool.or_eq_true, h, h]
  constructor
  · rintro (⟨j, h1, h2, h3⟩ | ⟨j, h1, h2, h3⟩)
    · exact ⟨j, h1, by omega, h3⟩
    · exact ⟨j, by omega, by omega, h3⟩
  · rintro ⟨j, h1, h2, h3⟩
    by_cases hj : j < i + n
    · exact Or.inl ⟨j, h1, hj, h3⟩
    · exact Or.inr ⟨j, by omega, by omega, h3⟩

/-- The six smearing steps set bit `i` exactly when some bit `i .. i + 63` of
the argument is set. -/
theorem smear_testBit (v i : Nat) :
    (let v1 := v ||| (v >>> 1)
     let v2 := v1 ||| (v1 >>> 2)
     let v3 := v2 ||| (v2 >>> 4)
     let v4 := v3 ||| (v3 >>> 8)
     let v5 := v4 ||| (v4 >>> 16)
     v5 ||| (v5 >>> 32)).testBit i = true ↔
      ∃ j, i ≤ j ∧ j < i + 64 ∧ v.testBit j = true := by
  have h0 : ∀ i, v.testBit i = true ↔ ∃ j, i ≤ j ∧ j < i + 1 ∧ v.testBit j = true := by
    intro i
    constructor
    · intro h
      exact ⟨i, le_refl i, by omega, h⟩
    · rintro ⟨j, h1, h2, h3⟩
      have : j = i := by omega
      subst this
      exact h3
  have h1 := smear_window v _ 1 h0
  have h2 := smear_window v _ 2 h1
  have h3 := smear_window v _ 4 h2
  have h4 := smear_window v _ 8 h3
  have h5 := smear_window v _ 16 h4
  exact smear_window v _ 32 h5 i

/-- Smearing a non-zero 64-bit number whose highest set bit is `m` gives
`2 ^ (m + 1) - 1`. -/
theorem smear_eq (v m : Nat) (hm : v.testBit m = true)
    (hhi : ∀ j, m < j → v.testBit j = false) (h64 : m < 64) :
    (let v1 := v ||| (v >>> 1)
     let v2 := v1 ||| (v1 >>> 2)
     let v3 := v2 ||| (v2 >>> 4)
     let v4 := v3 ||| (v3 >>> 8)
     let v5 := v4 ||| (v4 >>> 16)
     v5 ||| (v5 >>> 32)) = 2 ^ (m + 1) - 1 := by
  apply Nat.eq_of_testBit_eq
  intro i
  rw [Nat.testBit_two_pow_sub_one]
  by_cases hi : i < m + 1
  · rw [decide_eq_true hi]
    exact (smear_testBit v i).2 ⟨m, by omega, by omega, hm⟩
  · rw [decide_eq_false hi]
    rw [Bool.eq_false_iff]
    intro hset
    obtain ⟨j, h1, _, h3⟩ := (smear_testBit v i).1 hset
    rw [hhi j (by omega)] at h3
    exact Bool.false_ne_true h3

/-- The rounding of a size `r` with `2 ^ m < r ≤ 2 ^ (m + 1)` and `m < 63`. -/
theorem roundUp_between (r m : Nat) (hlo : 2 ^ m < r) (hhi : r ≤ 2 ^ (m + 1)) (hm : m < 63) :
    roundUpToPowerOfTwo r = 2 ^ (m + 1) := by
  have hpow : 2 ^ (m + 1) ≤ 2 ^ 63 := Nat.pow_le_pow_right (by decide) (by omega)
  have hpos : 0 < 2 ^ m := Nat.two_pow_pos _
  have hdec : decU64 r = r - 1 := by
    unfold decU64
    rw [if_neg (by omega)]
  have hne : r - 1 ≠ 0 := by omega
  obtain ⟨k, hk, hkhi⟩ := Nat.exists_most_significant_bit hne
  have hge : 2 ^ k ≤ r - 1 := Nat.testBit_implies_ge hk
  have hkm : k = m := by
    have h1 : k < m + 1 := by
      by_contra hcon
      have : 2 ^ (m + 1) ≤ 2 ^ k := Nat.pow_le_pow_right (by decide) (by omega)
      omega
    have h2 : ¬ k < m := by
      intro hcon
      have hlt : r - 1 < 2 ^ m := by
        apply Nat.lt_pow_two_of_testBit
        intro i hi
        exact hkhi i (by omega)
      omega
    omega
  subst hkm
  have hs := smear_eq (r - 1) k hk hkhi (by omega)
  unfold roundUpToPowerOfTwo
  simp only [hdec]
  simp only at hs
  rw [hs]
  unfold incU64
  have : 0 < 2 ^ (k + 1) := Nat.two_pow_pos _
  omega

/-- Every size `r ≥ 2` lies in a unique dyadic interval `(2 ^ m, 2 ^ (m + 1)]`. -/
theorem exists_dyadic (r : Nat) (h : 2 ≤ r) : ∃ m, 2 ^ m < r ∧ r ≤ 2 ^ (m + 1) := by
  have hne : r - 1 ≠ 0 := by omega
  obtain ⟨k, hk, hkhi⟩ := Nat.exists_most_significant_bit hne
  refine ⟨k, ?_, ?_⟩
  · have : 2 ^ k ≤ r - 1 := Nat.testBit_implies_ge hk
    omega
  · have : r - 1 < 2 ^ (k + 1) := by
      apply Nat.lt_pow_two_of_testBit
      intro i hi
      exact hkhi i (by omega)
    omega

/-- C1. For every requested size `r` with `1 ≤ r ≤ 2 ^ 63`, the capacity
reported by `getBufferSize` after construction is `roundUpToPowerOfTwo r`, and
it is the least power of two that is at least `r`: it is a power of two, it is
at least `r`, it is below `2 * r`, no power of two at least `r` is smaller, and
it is `r` itself when `r` is a power of two. -/
theorem roundUpToPowerOfTwo_least (T : Type) (f : EntryFactory T) (r : Nat)
    (h1 : 1 ≤ r) (h2 : r ≤ 2 ^ 63) :
    (RingBuffer.new r f).getBufferSize = roundUpToPowerOfTwo r ∧
    (∃ k, k ≤ 63 ∧ roundUpToPowerOfTwo r = 2 ^ k) ∧
    r ≤ roundUpToPowerOfTwo r ∧
    roundUpToPowerOfTwo r < 2 * r ∧
    (∀ j, r ≤ 2 ^ j → roundUpToPowerOfTwo r ≤ 2 ^ j) ∧
    ((∃ j, r = 2 ^ j) → roundUpToPowerOfTwo r = r) := by
  refine ⟨rfl, ?_⟩
  by_cases hr : r = 1
  · subst hr
    have h : roundUpToPowerOfTwo 1 = 1 := by decide
    rw [h]
    refine ⟨⟨0, by omega, rfl⟩, le_refl 1, by omega, ?_, fun _ => rfl⟩
    intro j _
    exact Nat.two_pow_pos _
  · obtain ⟨m, hlo, hhi⟩ := exists_dyadic r (by omega)
    have hm : m < 63 := by
      by_contra hcon
      have : 2 ^ 63 ≤ 2 ^ m := Nat.pow_le_pow_right (by decide) (by omega)
      omega
    rw [roundUp_between r m hlo hhi hm]
    have hsucc : 2 ^ (m + 1) = 2 * 2 ^ m := by rw [pow_succ]; ring
    refine ⟨⟨m + 1, by omega, rfl⟩, hhi, by omega, ?_, ?_⟩
    · intro j hj
      apply Nat.pow_le_pow_right (by decide)
      by_contra hcon
      have : 2 ^ j ≤ 2 ^ m := Nat.pow_le_pow_right (by decide) (by omega)
      omega
    · rintro ⟨j, rfl⟩
      have h3 : m < j := (Nat.pow_lt_pow_iff_right (by decide)).1 hlo
      have h4 : j ≤ m + 1 := (Nat.pow_le_pow_iff_right (by decide)).1 hhi
      have : j = m + 1 := by omega
      rw [this]

/-- C1 at the requested size 17 of scenario S5. -/
theorem roundUpToPowerOfTwo_least_witness :
    (1 ≤ 17 ∧ 17 ≤ 2 ^ 63) ∧
    (RingBuffer.new 17 (DefaultEntryFactory Nat)).getBufferSize = roundUpToPowerOfTwo 17 ∧
    (∃ k, k ≤ 63 ∧ roundUpToPowerOfTwo 17 = 2 ^ k) ∧
    17 ≤ roundUpToPowerOfTwo 17 ∧
    roundUpToPowerOfTwo 17 < 2 * 17 ∧
    (∀ j, 17 ≤ 2 ^ j → roundUpToPowerOfTwo 17 ≤ 2 ^ j) ∧
    ((∃ j, 17 = 2 ^ j) → roundUpToPowerOfTwo 17 = 17) :=
  ⟨⟨by decide, by decide⟩,
    roundUpToPowerOfTwo_least Nat (DefaultEntryFactory Nat) 17 (by decide) (by decide)⟩

/-! ## Minimum scans -/

/-- The scan never exceeds its starting value. -/
theorem minimumLoop_le_init (l : List Int) (m : Int) : minimumLoop m l ≤ m := by
  induction l generalizing m with
  | nil => exact le_refl m
  | cons v rest ih =>
    unfold minimumLoop
    by_cases hvm : v < m
    · rw [if_pos hvm]
      have h := ih v
      omega
    · rw [if_neg hvm]
      exact ih m

/-- The scan never exceeds a value it has read. -/
theorem minimumLoop_le_mem (l : List Int) (m : Int) (x : Int) (hx : x ∈ l) :
    minimumLoop m l ≤ x := by
  induction l generalizing m with
  | nil => cases hx
  | cons v rest ih =>
    unfold minimumLoop
    rcases List.mem_cons.1 hx with h | h
    · subst h
      by_cases hxm : x < m
      · rw [if_pos hxm]
        exact minimumLoop_le_init rest x
      · rw [if_neg hxm]
        have h1 := minimumLoop_le_init rest m
        omega
    · exact ih _ h

/-- The scan returns its starting value or one of the values read. -/
theorem minimumLoop_mem (l : List Int) (m : Int) :
    minimumLoop m l = m ∨ minimumLoop m l ∈ l := by
  induction l generalizing m with
  | nil => exact Or.inl rfl
  | cons v rest ih =>
    unfold minimumLoop
    rcases ih (if v < m then v else m) with h | h
    · rw [h]
      split
      · exact Or.inr (List.mem_cons_self _ _)
      · exact Or.inl rfl
    · exact Or.inr (List.mem_cons_of_mem _ h)

/-- On a non-empty list of `int64_t` values the claim strategy's minimum is one
of the values. -/
theorem getMinimumSequence_mem (l : List Int) (hne : l ≠ [])
    (hmax : ∀ v ∈ l, v ≤ INT64_MAX) :
    SingleThreadedClaimStrategy.getMinimumSequence l ∈ l := by
  unfold SingleThreadedClaimStrategy.getMinimumSequence
  rcases minimumLoop_mem l INT64_MAX with h | h
  · cases l with
    | nil => exact absurd rfl hne
    | cons v rest =>
      have h1 := minimumLoop_le_mem (v :: rest) INT64_MAX v (List.mem_cons_self _ _)
      have h2 := hmax v (List.mem_cons_self _ _)
      have h3 : v = minimumLoop INT64_MAX (v :: rest) := by omega
      rw [← h3]
      exact List.mem_cons_self _ _
  · exact h

/-- The wrap point is never below the exact difference: the claimed sequence is
an `int64_t` and the buffer size is not negative. -/
theorem wrapPoint_ge (cs : SingleThreadedClaimStrategy) (n : Int) :
    (cs.next n).1 - (cs.buffer_size_ : Int) ≤ cs.wrapPoint n := by
  unfold SingleThreadedClaimStrategy.wrapPoint SingleThreadedClaimStrategy.next wrapI64 toU64
  simp only
  omega

/-! ## Capacity check -/

/-- Effect of one capacity check on the claim strategy's fields. -/
theorem hasAvailableCapacity_fields (cs : SingleThreadedClaimStrategy) (n : Int)
    (g : List Int) :
    (cs.hasAvailableCapacity n g).2.buffer_size_ = cs.buffer_size_ ∧
    (cs.hasAvailableCapacity n g).2.next_value_ = cs.next_value_ ∧
    ((cs.hasAvailableCapacity n g).2.cached_value_ = cs.cached_value_ ∨
      (cs.hasAvailableCapacity n g).2.cached_value_ =
        SingleThreadedClaimStrategy.getMinimumSequence g) ∧
    ((cs.hasAvailableCapacity n g).1 = true →
      cs.wrapPoint n ≤ (cs.hasAvailableCapacity n g).2.cached_value_) := by
  unfold SingleThreadedClaimStrategy.hasAvailableCapacity
  simp only
  by_cases h1 : cs.wrapPoint n > cs.cached_value_
  · rw [if_pos h1]
    by_cases h2 : cs.wrapPoint n > SingleThreadedClaimStrategy.getMinimumSequence g
    · rw [if_pos h2]
      refine ⟨rfl, rfl, Or.inr rfl, ?_⟩
      intro h
      cases h
    · rw [if_neg h2]
      refine ⟨rfl, rfl, Or.inr rfl, ?_⟩
      intro _
      simp only
      omega
  · rw [if_neg h1]
    refine ⟨rfl, rfl, Or.inl rfl, ?_⟩
    intro _
    show cs.wrapPoint n ≤ cs.cached_value_
    omega

/-- Values related pointwise to the members of a list dominate one of them. -/
theorem forall₂_le_mem (l1 l2 : List Int)
    (h : List.Forall₂ (fun old new => old ≤ new) l1 l2) (y : Int) (hy : y ∈ l2) :
    ∃ x ∈ l1, x ≤ y := by
  induction h with
  | nil => cases hy
  | cons hab _ ih =>
    rcases List.mem_cons.1 hy with h1 | h1
    · subst h1
      exact ⟨_, List.mem_cons_self _ _, hab⟩
    · obtain ⟨x, hx, hxy⟩ := ih h1
      exact ⟨x, List.mem_cons_of_mem _ hx, hxy⟩

/-- Invariant of the producer side: the claim strategy keeps the capacity it was
built with, the gating set stays non-empty and within `int64_t`, and the cached
minimum never exceeds a gating value. -/
theorem producer_invariant (capacity consumers : Nat) (st : ProducerState)
    (h : ProducerReachable capacity consumers st) :
    st.claim.buffer_size_ = capacity ∧ st.gating ≠ [] ∧
    (∀ g ∈ st.gating, st.claim.cached_value_ ≤ g) ∧
    (∀ g ∈ st.gating, g ≤ INT64_MAX) := by
  induction h with
  | init =>
    refine ⟨rfl, ?_, ?_, ?_⟩
    · simp [List.replicate_succ]
    · intro g hg
      rw [List.eq_of_mem_replicate hg]
      exact le_refl _
    · intro g hg
      rw [List.eq_of_mem_replicate hg]
      decide
  | step st st1 _ hstep ih =>
    obtain ⟨hcap, hne, hcache, hmax⟩ := ih
    cases hstep with
    | advance gating1 hadv hmax1 =>
      refine ⟨hcap, ?_, ?_, hmax1⟩
      · intro hnil
        simp only at hnil
        rw [hnil] at hadv
        exact hne (List.forall₂_nil_right_iff.1 hadv)
      · intro g hg
        obtain ⟨x, hx, hxg⟩ := forall₂_le_mem _ _ hadv g hg
        have := hcache x hx
        simp only
        omega
    | refused n hn hres =>
      obtain ⟨hb, _, hc, _⟩ := hasAvailableCapacity_fields st.claim n st.gating
      refine ⟨by simp only; rw [hb]; exact hcap, hne, ?_, hmax⟩
      intro g hg
      simp only
      rcases hc with hc | hc
      · rw [hc]
        exact hcache g hg
      · rw [hc]
        exact minimumLoop_le_mem _ _ g hg
    | granted n hn hres =>
      obtain ⟨hb, _, hc, _⟩ := hasAvailableCapacity_fields st.claim n st.gating
      refine ⟨?_, hne, ?_, hmax⟩
      · simp only [SingleThreadedClaimStrategy.next]
        rw [hb]
        exact hcap
      · intro g hg
        simp only [SingleThreadedClaimStrategy.next]
        rcases hc with hc | hc
        · rw [hc]
          exact hcache g hg
        · rw [hc]
          exact minimumLoop_le_mem _ _ g hg

/-- C2. Backpressure bound. In every state the producer side reaches from a
fresh claim strategy and a non-empty gating set at `-1` whose values only
increase, whenever the capacity check of `nextEntry(n)` answers true,
the sequence `s` that `next(n)` then returns satisfies `s - m ≤ capacity`, where
`m` is the minimum of the gating values at that instant, whether the answer came
from the cached fast path or from a fresh scan. -/
theorem backpressure_bound (capacity consumers : Nat) (st : ProducerState) (n : Int)
    (hreach : ProducerReachable capacity consumers st)
    (hgrant : (st.claim.hasAvailableCapacity n st.gating).1 = true) :
    ∃ m ∈ st.gating, (∀ g ∈ st.gating, m ≤ g) ∧
      ((st.claim.hasAvailableCapacity n st.gating).2.next n).1 - m ≤ (capacity : Int) := by
  obtain ⟨hcap, hne, hcache, hmax⟩ := producer_invariant capacity consumers st hreach
  obtain ⟨hb, hnv, hc, hwp⟩ := hasAvailableCapacity_fields st.claim n st.gating
  have hmem := getMinimumSequence_mem st.gating hne hmax
  refine ⟨SingleThreadedClaimStrategy.getMinimumSequence st.gating, hmem, ?_, ?_⟩
  · intro g hg
    exact minimumLoop_le_mem _ _ g hg
  · have h1 := hwp hgrant
    have h2 : (st.claim.hasAvailableCapacity n st.gating).2.cached_value_ ≤
        SingleThreadedClaimStrategy.getMinimumSequence st.gating := by
      rcases hc with hc | hc
      · rw [hc]
        exact hcache _ hmem
      · rw [hc]
    have h3 := wrapPoint_ge st.claim n
    have h4 : ((st.claim.hasAvailableCapacity n st.gating).2.next n).1 =
        (st.claim.next n).1 := by
      simp only [SingleThreadedClaimStrategy.next]
      rw [hnv]
    rw [h4, ← hcap]
    omega

/-- A reachable producer state: capacity 4, one gating sequence; four
sequences are claimed at once, then the consumer advances to 1. -/
theorem producer_reachable_example :
    ProducerReachable 4 0
      { claim := { buffer_size_ := 4, next_value_ := 3, cached_value_ := -1 }, gating := [1] } := by
  have h0 : ProducerReachable 4 0
      { claim := SingleThreadedClaimStrategy.new 4, gating := [-1] } :=
    ProducerReachable.init
  have h1 : ProducerReachable 4 0
      { claim := { buffer_size_ := 4, next_value_ := 3, cached_value_ := -1 }, gating := [-1] } :=
    ProducerReachable.step _ _ h0
      (ProducerStep.granted { claim := SingleThreadedClaimStrategy.new 4, gating := [-1] } 4
        (by decide) (by decide))
  exact ProducerReachable.step _ _ h1
    (ProducerStep.advance
      { claim := { buffer_size_ := 4, next_value_ := 3, cached_value_ := -1 }, gating := [-1] }
      [1] (List.Forall₂.cons (by decide) List.Forall₂.nil) (by decide))

/-- C2 at capacity 4 with one consumer at sequence 1 and sequences up to 3
claimed: a claim of two more is granted through a fresh scan and returns 5. -/
theorem backpressure_bound_witness :
    ProducerReachable 4 0
      { claim := { buffer_size_ := 4, next_value_ := 3, cached_value_ := -1 }, gating := [1] } ∧
    ((SingleThreadedClaimStrategy.mk 4 3 (-1)).hasAvailableCapacity 2 [1]).1 = true ∧
    ∃ m ∈ [(1 : Int)], (∀ g ∈ [(1 : Int)], m ≤ g) ∧
      (((SingleThreadedClaimStrategy.mk 4 3 (-1)).hasAvailableCapacity 2 [1]).2.next 2).1 - m
        ≤ ((4 : Nat) : Int) :=
  ⟨producer_reachable_example, by decide,
    backpressure_bound 4 0
      { claim := { buffer_size_ := 4, next_value_ := 3, cached_value_ := -1 }, gating := [1] } 2
      producer_reachable_example (by decide)⟩

/-! ## Slot mapping -/

/-- With the mask `2 ^ k - 1`, `k ≤ 64`, the slot index of a sequence is its
non-negative remainder modulo `2 ^ k`. -/
theorem get_eq_emod (T : Type) (rb : RingBuffer T) (k : Nat) (hk : k ≤ 64)
    (hmask : rb.index_mask_ = 2 ^ k - 1) (s : Int) :
    ((rb.get s : Nat) : Int) = s % 2 ^ k := by
  unfold RingBuffer.get toU64
  rw [hmask, Nat.and_pow_two_sub_one_eq_mod]
  have h64 : (0 : Int) ≤ s % 2 ^ 64 := Int.emod_nonneg s (by norm_num)
  have hdvd : (2 : Int) ^ k ∣ 2 ^ 64 := pow_dvd_pow 2 hk
  rw [Int.natCast_mod, Int.toNat_of_nonneg h64]
  push_cast
  exact Int.emod_emod_of_dvd s hdvd

/-- The mask of a buffer whose size is a power of two. -/
theorem decU64_two_pow (k : Nat) : decU64 (2 ^ k) = 2 ^ k - 1 := by
  unfold decU64
  rw [if_neg (by have := Nat.two_pow_pos k; omega)]

/-- Two sequences less than `2 ^ k` apart that share a slot are equal. -/
theorem get_injective_of_close (T : Type) (rb : RingBuffer T) (k : Nat) (hk : k ≤ 64)
    (hmask : rb.index_mask_ = 2 ^ k - 1) (s1 s2 : Int)
    (hclose : |s1 - s2| < 2 ^ k) (hslot : rb.get s1 = rb.get s2) : s1 = s2 := by
  have h1 := get_eq_emod T rb k hk hmask s1
  have h2 := get_eq_emod T rb k hk hmask s2
  rw [hslot, h2] at h1
  have h3 : (s1 - s2) % 2 ^ k = 0 := Int.emod_eq_emod_iff_emod_sub_eq_zero.1 h1.symm
  have h4 : (2 : Int) ^ k ∣ s1 - s2 := Int.dvd_of_emod_eq_zero h3
  have h5 := Int.eq_zero_of_abs_lt_dvd h4 hclose
  omega

/-- C3. No overwrite of un-consumed slots. For a ring buffer whose capacity is
a power of two and whose mask is the capacity minus one, and for a gating
minimum `m` and a granted sequence `hi` with `hi - m ≤ capacity`, the sequences
of the window `(m, hi]` occupy pairwise distinct slots under `RingBuffer::get`;
so the slot of a newly claimed sequence differs from the slot of every earlier
sequence the slowest gating consumer has not consumed. -/
theorem no_overwrite_of_unconsumed (T : Type) (rb : RingBuffer T) (k : Nat) (hk : k ≤ 63)
    (hsize : rb.buffer_size_ = 2 ^ k) (hmask : rb.index_mask_ = decU64 rb.buffer_size_)
    (m hi : Int) (hwin : hi - m ≤ (rb.getBufferSize : Int)) :
    (∀ s1 s2 : Int, m < s1 → s1 ≤ hi → m < s2 → s2 ≤ hi →
      rb.get s1 = rb.get s2 → s1 = s2) ∧
    (∀ sNew sOld : Int, m < sOld → sOld < sNew → sNew ≤ hi → rb.get sNew ≠ rb.get sOld) := by
  have hmask1 : rb.index_mask_ = 2 ^ k - 1 := by rw [hmask, hsize, decU64_two_pow]
  have hwin1 : hi - m ≤ 2 ^ k := by
    have : (rb.getBufferSize : Int) = 2 ^ k := by
      show ((rb.buffer_size_ : Nat) : Int) = 2 ^ k
      rw [hsize]
      push_cast
      rfl
    rw [this] at hwin
    exact hwin
  have hinj : ∀ s1 s2 : Int, m < s1 → s1 ≤ hi → m < s2 → s2 ≤ hi →
      rb.get s1 = rb.get s2 → s1 = s2 := by
    intro s1 s2 h1 h2 h3 h4 hslot
    apply get_injective_of_close T rb k (by omega) hmask1 s1 s2 _ hslot
    rw [abs_lt]
    constructor <;> omega
  refine ⟨hinj, ?_⟩
  intro sNew sOld h1 h2 h3 hslot
  have := hinj sNew sOld (by omega) h3 h1 (by omega) hslot
  omega

/-- C3 on a buffer built for 4 slots, consumer at 1 and sequences up to 5
granted. -/
theorem no_overwrite_of_unconsumed_witness :
    ((2 : Nat) ≤ 63 ∧ (RingBuffer.new 4 (DefaultEntryFactory Nat)).buffer_size_ = 2 ^ 2 ∧
      (RingBuffer.new 4 (DefaultEntryFactory Nat)).index_mask_ =
        decU64 (RingBuffer.new 4 (DefaultEntryFactory Nat)).buffer_size_ ∧
      (5 : Int) - 1 ≤ ((RingBuffer.new 4 (DefaultEntryFactory Nat)).getBufferSize : Int)) ∧
    (∀ s1 s2 : Int, 1 < s1 → s1 ≤ 5 → 1 < s2 → s2 ≤ 5 →
      (RingBuffer.new 4 (DefaultEntryFactory Nat)).get s1 =
        (RingBuffer.new 4 (DefaultEntryFactory Nat)).get s2 → s1 = s2) ∧
    (∀ sNew sOld : Int, 1 < sOld → sOld < sNew → sNew ≤ 5 →
      (RingBuffer.new 4 (DefaultEntryFactory Nat)).get sNew ≠
        (RingBuffer.new 4 (DefaultEntryFactory Nat)).get sOld) :=
  ⟨⟨by decide, by decide, by decide, by decide⟩,
    no_overwrite_of_unconsumed Nat (RingBuffer.new 4 (DefaultEntryFactory Nat)) 2
      (by decide) (by decide) (by decide) 1 5 (by decide)⟩

/-! ## Capacity check as specified -/

/-- The wrap point is the `int64_t` value of `next_value_ + n - buffer_size_`. -/
theorem wrapPoint_eq (cs : SingleThreadedClaimStrategy) (n : Int) :
    cs.wrapPoint n = wrapI64 (cs.next_value_ + n - (cs.buffer_size_ : Int)) := by
  unfold SingleThreadedClaimStrategy.wrapPoint wrapI64 toU64
  omega

/-- C8. Capacity check. With `wrapPoint` the 64-bit value of
`nextValue + n - capacity` (the exact difference whenever that is an `int64_t`):
if `wrapPoint ≤ cachedGatingMin` the check answers true and leaves the state as
it is, whatever the gating values are; otherwise it stores the minimum of the
gating values in `cachedGatingMin` and answers whether `wrapPoint` is at most
that minimum. `nextValue` is unchanged in both cases. The minimum is below
every gating value and, for a non-empty set of `int64_t` values, is one of
them. -/
theorem hasAvailableCapacity_def (cs : SingleThreadedClaimStrategy) (n : Int)
    (gating : List Int) :
    cs.wrapPoint n = wrapI64 (cs.next_value_ + n - (cs.buffer_size_ : Int)) ∧
    (-(2 : Int) ^ 63 ≤ cs.next_value_ + n - (cs.buffer_size_ : Int) →
      cs.next_value_ + n - (cs.buffer_size_ : Int) < 2 ^ 63 →
      cs.wrapPoint n = cs.next_value_ + n - (cs.buffer_size_ : Int)) ∧
    (cs.wrapPoint n ≤ cs.cached_value_ →
      ∀ other : List Int, cs.hasAvailableCapacity n other = (true, cs)) ∧
    (cs.cached_value_ < cs.wrapPoint n →
      cs.hasAvailableCapacity n gating =
        (decide (cs.wrapPoint n ≤ SingleThreadedClaimStrategy.getMinimumSequence gating),
          { cs with cached_value_ := SingleThreadedClaimStrategy.getMinimumSequence gating })) ∧
    (cs.hasAvailableCapacity n gating).2.next_value_ = cs.next_value_ ∧
    (∀ g ∈ gating, SingleThreadedClaimStrategy.getMinimumSequence gating ≤ g) ∧
    (gating ≠ [] → (∀ g ∈ gating, g ≤ INT64_MAX) →
      SingleThreadedClaimStrategy.getMinimumSequence gating ∈ gating) := by
  refine ⟨wrapPoint_eq cs n, ?_, ?_, ?_, (hasAvailableCapacity_fields cs n gating).2.1,
    fun g hg => minimumLoop_le_mem _ _ g hg, getMinimumSequence_mem gating⟩
  · intro h1 h2
    rw [wrapPoint_eq]
    unfold wrapI64
    omega
  · intro h other
    unfold SingleThreadedClaimStrategy.hasAvailableCapacity
    simp only
    rw [if_neg (by omega)]
  · intro h
    unfold SingleThreadedClaimStrategy.hasAvailableCapacity
    simp only
    rw [if_pos (by omega)]
    by_cases h2 : cs.wrapPoint n > SingleThreadedClaimStrategy.getMinimumSequence gating
    · rw [if_pos h2, decide_eq_false (by omega)]
    · rw [if_neg h2, decide_eq_true (by omega)]

/-- C8 on a strategy of capacity 4 that has assigned up to sequence 3: the
check for two more scans the gating value 1 and is granted. -/
theorem hasAvailableCapacity_def_witness :
    (SingleThreadedClaimStrategy.mk 4 3 (-1)).hasAvailableCapacity 2 [1] =
      (true, SingleThreadedClaimStrategy.mk 4 3 1) := by
  have h := (hasAvailableCapacity_def (SingleThreadedClaimStrategy.mk 4 3 (-1)) 2 [1]).2.2.2.1
    (by decide)
  rw [h]
  decide

/-! ## Wait strategies -/

/-- The scan is at least any lower bound of its start and of the values read. -/
theorem le_minimumLoop (l : List Int) (m x : Int) (hm : x ≤ m) (hl : ∀ d ∈ l, x ≤ d) :
    x ≤ minimumLoop m l := by
  induction l generalizing m with
  | nil => exact hm
  | cons v rest ih =>
    unfold minimumLoop
    have hv := hl v (List.mem_cons_self _ _)
    have hrest : ∀ d ∈ rest, x ≤ d := fun d hd => hl d (List.mem_cons_of_mem _ hd)
    by_cases hvm : v < m
    · rw [if_pos hvm]
      exact ih v hv hrest
    · rw [if_neg hvm]
      exact ih m hm hrest

/-- The yielding loop returns what the busy-spin loop returns, whatever the
spin count it starts from. -/
theorem yielding_eq_busySpin (sequence : Int) (reads : List (Option Int × List Int))
    (spin_tries : Int) :
    YieldingWaitStrategy.waitLoop sequence spin_tries reads =
      BusySpinWaitStrategy.waitFor sequence reads := by
  induction reads generalizing spin_tries with
  | nil => rfl
  | cons o later ih =>
    obtain ⟨cursor, dependents⟩ := o
    unfold YieldingWaitStrategy.waitLoop BusySpinWaitStrategy.waitFor
    simp only
    by_cases h : getMinimumSequence cursor dependents ≥ sequence
    · rw [if_pos h, if_pos h]
    · rw [if_neg h, if_neg h]
      by_cases h2 : spin_tries + 1 > 100
      · rw [if_pos h2]
        exact ih 0
      · rw [if_neg h2]
        exact ih (spin_tries + 1)

/-- Both strategies behind a consumer barrier act as the busy-spin loop. -/
theorem barrier_waitFor_eq (ws : WaitStrategyType) (sequence : Int)
    (reads : List (Int × List Int)) :
    ConsumerBarrier.waitFor ws sequence reads =
      BusySpinWaitStrategy.waitFor sequence (reads.map fun o => (some o.1, o.2)) := by
  cases ws
  · rfl
  · exact yielding_eq_busySpin sequence _ 0

/-- The busy-spin loop returns the minimum of the first reading that reaches the
target. -/
theorem busySpin_some (sequence h : Int) (reads : List (Int × List Int))
    (hret : BusySpinWaitStrategy.waitFor sequence (reads.map fun o => (some o.1, o.2)) = some h) :
    ∃ before o after, reads = before ++ o :: after ∧
      (∀ p ∈ before, getMinimumSequence (some p.1) p.2 < sequence) ∧
      h = getMinimumSequence (some o.1) o.2 ∧ sequence ≤ h := by
  induction reads with
  | nil => cases hret
  | cons o later ih =>
    rw [List.map_cons] at hret
    unfold BusySpinWaitStrategy.waitFor at hret
    simp only at hret
    by_cases hge : getMinimumSequence (some o.1) o.2 ≥ sequence
    · rw [if_pos hge] at hret
      refine ⟨[], o, later, rfl, ?_, ?_, ?_⟩
      · intro p hp
        cases hp
      · exact (Option.some.inj hret).symm
      · rw [← Option.some.inj hret]
        exact hge
    · rw [if_neg hge] at hret
      obtain ⟨before, o1, after, h1, h2, h3, h4⟩ := ih hret
      refine ⟨o :: before, o1, after, by rw [h1]; rfl, ?_, h3, h4⟩
      intro p hp
      rcases List.mem_cons.1 hp with hp | hp
      · subst hp
        omega
      · exact h2 p hp

/-- The busy-spin loop returns as soon as some reading reaches the target. -/
theorem busySpin_returns (sequence : Int) (reads : List (Int × List Int))
    (hex : ∃ o ∈ reads, sequence ≤ getMinimumSequence (some o.1) o.2) :
    ∃ h, BusySpinWaitStrategy.waitFor sequence (reads.map fun o => (some o.1, o.2)) = some h := by
  induction reads with
  | nil =>
    obtain ⟨o, ho, _⟩ := hex
    cases ho
  | cons o later ih =>
    rw [List.map_cons]
    unfold BusySpinWaitStrategy.waitFor
    simp only
    by_cases hge : getMinimumSequence (some o.1) o.2 ≥ sequence
    · rw [if_pos hge]
      exact ⟨_, rfl⟩
    · rw [if_neg hge]
      apply ih
      obtain ⟨o1, ho1, h1⟩ := hex
      rcases List.mem_cons.1 ho1 with h2 | h2
      · subst h2
        omega
      · exact ⟨o1, h2, h1⟩

/-- C6. Wait contract. When `waitFor(target, cursor, dependents)` of either
strategy returns `h` over a sequence of readings, then `h ≥ target`, and `h` is
`getMinimumSequence` of the reading of the iteration that returned, the first
one whose minimum reaches the target: `h` is at most the cursor and at most
every dependent, it is the highest such value, and it is the cursor value when
there are no dependents. Both strategies return the same `h` on the same
readings, and either returns once some reading reaches the target. -/
theorem waitFor_contract (ws : WaitStrategyType) (target h : Int)
    (reads : List (Int × List Int))
    (hret : ConsumerBarrier.waitFor ws target reads = some h) :
    target ≤ h ∧
    (∃ before o after, reads = before ++ o :: after ∧
      (∀ p ∈ before, getMinimumSequence (some p.1) p.2 < target) ∧
      h = getMinimumSequence (some o.1) o.2 ∧
      h ≤ o.1 ∧ (∀ d ∈ o.2, h ≤ d) ∧
      (∀ x : Int, x ≤ o.1 → (∀ d ∈ o.2, x ≤ d) → x ≤ h) ∧
      (o.2 = [] → h = o.1)) ∧
    (∀ other : WaitStrategyType, ConsumerBarrier.waitFor other target reads = some h) ∧
    (∀ more : List (Int × List Int),
      (∃ o ∈ more, target ≤ getMinimumSequence (some o.1) o.2) →
      ∃ h1, ConsumerBarrier.waitFor ws target more = some h1) := by
  rw [barrier_waitFor_eq] at hret
  obtain ⟨before, o, after, h1, h2, h3, h4⟩ := busySpin_some target h reads hret
  refine ⟨h4, ⟨before, o, after, h1, h2, h3, ?_, ?_, ?_, ?_⟩, ?_, ?_⟩
  · rw [h3]
    exact minimumLoop_le_init _ _
  · intro d hd
    rw [h3]
    exact minimumLoop_le_mem _ _ d hd
  · intro x hx hd
    rw [h3]
    exact le_minimumLoop _ _ x hx hd
  · intro hnil
    rw [h3, hnil]
    rfl
  · intro other
    rw [barrier_waitFor_eq]
    exact hret
  · intro more hex
    rw [barrier_waitFor_eq]
    exact busySpin_returns target more hex

/-- C6 on three readings for target 3 with one dependent: the third reading,
cursor 7 and dependent 4, is the first to reach the target and 4 is returned. -/
theorem waitFor_contract_witness :
    ConsumerBarrier.waitFor WaitStrategyType.YIELDING 3 [(2, [1]), (5, [2]), (7, [4])] = some 4 ∧
    ((3 : Int) ≤ 4 ∧
    (∃ before o after, [((2 : Int), [(1 : Int)]), (5, [2]), (7, [4])] = before ++ o :: after ∧
      (∀ p ∈ before, getMinimumSequence (some p.1) p.2 < 3) ∧
      4 = getMinimumSequence (some o.1) o.2 ∧
      4 ≤ o.1 ∧ (∀ d ∈ o.2, 4 ≤ d) ∧
      (∀ x : Int, x ≤ o.1 → (∀ d ∈ o.2, x ≤ d) → x ≤ 4) ∧
      (o.2 = [] → 4 = o.1)) ∧
    (∀ other : WaitStrategyType,
      ConsumerBarrier.waitFor other 3 [(2, [1]), (5, [2]), (7, [4])] = some 4) ∧
    (∀ more : List (Int × List Int),
      (∃ o ∈ more, 3 ≤ getMinimumSequence (some o.1) o.2) →
      ∃ h1, ConsumerBarrier.waitFor WaitStrategyType.YIELDING 3 more = some h1)) :=
  ⟨by decide,
    waitFor_contract WaitStrategyType.YIELDING 3 4 [(2, [1]), (5, [2]), (7, [4])] (by decide)⟩

/-! ## Consumer loop -/

/-- The inner loop with a handler that never throws, given as many iterations
as there are sequences left up to `available`, invokes the handler once for
each of them in ascending order and ends with `next_sequence = available + 1`. -/
theorem deliver_ok (T : Type) (rb : RingBuffer T) (handler : BatchHandler)
    (hno : ∀ call, handler.throws call = false) (available : Int)
    (hmax : available < INT64_MAX) (n : Nat) (next : Int) (calls : List HandlerCall)
    (hlow : -(2 : Int) ^ 63 ≤ next) (hn : next + n = available + 1) :
    Consumer.deliver rb handler available n next calls =
      some (Delivery.done (available + 1)
        (calls ++ (List.range n).map fun i =>
          { slot := rb.get (next + i), sequence := next + i,
            end_of_batch := decide (next + i = available) })) := by
  induction n generalizing next calls with
  | zero =>
    unfold Consumer.deliver
    rw [if_neg (by omega)]
    simp only [List.range_zero, List.map_nil, List.append_nil]
    have : next = available + 1 := by omega
    rw [this]
  | succ n ih =>
    unfold Consumer.deliver
    rw [if_pos (by omega)]
    simp only [hno]
    have hw : wrapI64 (next + 1) = next + 1 := by
      unfold INT64_MAX at hmax
      unfold wrapI64
      omega
    rw [hw, ih (next + 1) _ (by omega) (by omega)]
    rw [List.range_succ_eq_map, List.map_cons, List.map_map, List.append_assoc]
    simp only [ConsumerBarrier.getEntry, List.singleton_append, Function.comp_def,
      Nat.succ_eq_add_one, Nat.cast_add, Nat.cast_one, Nat.cast_zero, add_zero, Bool.false_eq_true,
      if_false]
    have hcomm : ∀ i : Nat, next + 1 + (i : Int) = next + ((i : Int) + 1) := by
      intro i
      omega
    simp only [hcomm]

/-- C5. End-of-batch flag. In a wait round of `Consumer::run` in which `waitFor`
returned `available ≥ next_sequence` (both `int64_t`, `available` below the
maximum so that the loop counter can pass it), a handler that does not throw is
invoked `available - next_sequence + 1` times, for the sequences
`next_sequence .. available` in order, and `end_of_batch` is true on exactly one
invocation, the last one, whose sequence is `available`. -/
theorem end_of_batch_last (T : Type) (rb : RingBuffer T) (handler : BatchHandler)
    (hno : ∀ call, handler.throws call = false) (next available : Int)
    (calls : List HandlerCall) (hlow : -(2 : Int) ^ 63 ≤ next) (hle : next ≤ available)
    (hmax : available < INT64_MAX) :
    ∃ batch : List HandlerCall,
      Consumer.deliver rb handler available (available - next + 1).toNat next calls =
        some (Delivery.done (available + 1) (calls ++ batch)) ∧
      (batch.length : Int) = available - next + 1 ∧
      batch.map (fun call => call.sequence) =
        (List.range (available - next + 1).toNat).map (fun i : Nat => next + (i : Int)) ∧
      (∀ call ∈ batch, (call.end_of_batch = true ↔ call.sequence = available)) ∧
      batch.filter (fun call => call.end_of_batch) =
        [{ slot := rb.get available, sequence := available, end_of_batch := true }] ∧
      batch.getLast? =
        some { slot := rb.get available, sequence := available, end_of_batch := true } := by
  have hd := deliver_ok T rb handler hno available hmax (available - next + 1).toNat next calls
    hlow (by omega)
  refine ⟨_, hd, ?_, ?_, ?_, ?_, ?_⟩
  · rw [List.length_map, List.length_range]
    omega
  · rw [List.map_map]
    rfl
  · intro call hcall
    obtain ⟨i, _, hi⟩ := List.mem_map.1 hcall
    rw [← hi]
    simp only [decide_eq_true_eq]
  · have hk : (available - next + 1).toNat = (available - next).toNat + 1 := by omega
    have hlast : next + (((available - next).toNat : Nat) : Int) = available := by omega
    rw [hk, List.range_succ, List.map_append, List.filter_append, List.map_singleton]
    have hnil : List.filter (fun call : HandlerCall => call.end_of_batch)
        ((List.range (available - next).toNat).map fun i : Nat =>
          { slot := rb.get (next + i), sequence := next + i,
            end_of_batch := decide (next + i = available) }) = [] := by
      rw [List.filter_eq_nil_iff]
      intro call hcall
      obtain ⟨i, hi, hcall⟩ := List.mem_map.1 hcall
      rw [← hcall]
      have := List.mem_range.1 hi
      simp only [decide_eq_true_eq]
      omega
    rw [hnil, hlast]
    simp
  · have hk : (available - next + 1).toNat = (available - next).toNat + 1 := by omega
    have hlast : next + (((available - next).toNat : Nat) : Int) = available := by omega
    rw [hk, List.range_succ, List.map_append, List.map_singleton, List.getLast?_append, hlast]
    simp

/-- C5 on scenario S4. The wait round with `available = 14` from
`next_sequence = 10` sets the flag on sequence 14 only, and the run over the
two batches `0 .. 9` and `10 .. 14` sets it on the sequences 9 and 14 only. -/
theorem end_of_batch_last_witness :
    ((∀ call, (BatchHandler.mk fun _ => false).throws call = false) ∧
      -(2 : Int) ^ 63 ≤ 10 ∧ (10 : Int) ≤ 14 ∧ (14 : Int) < INT64_MAX) ∧
    (Option.map
        (fun c : Consumer =>
          (c.calls.filter fun call => call.end_of_batch).map fun call => call.sequence)
        (Consumer.run (RingBuffer.new 64 (DefaultEntryFactory Nat))
          (BatchHandler.mk fun _ => false) [9, 14] Consumer.new) =
      some [9, 14]) ∧
    ∃ batch : List HandlerCall,
      Consumer.deliver (RingBuffer.new 64 (DefaultEntryFactory Nat))
          (BatchHandler.mk fun _ => false) 14 ((14 : Int) - 10 + 1).toNat 10 [] =
        some (Delivery.done (14 + 1) ([] ++ batch)) ∧
      (batch.length : Int) = 14 - 10 + 1 ∧
      batch.map (fun call => call.sequence) =
        (List.range ((14 : Int) - 10 + 1).toNat).map (fun i : Nat => 10 + (i : Int)) ∧
      (∀ call ∈ batch, (call.end_of_batch = true ↔ call.sequence = 14)) ∧
      batch.filter (fun call => call.end_of_batch) =
        [{ slot := (RingBuffer.new 64 (DefaultEntryFactory Nat)).get 14, sequence := 14,
           end_of_batch := true }] ∧
      batch.getLast? =
        some { slot := (RingBuffer.new 64 (DefaultEntryFactory Nat)).get 14, sequence := 14,
               end_of_batch := true } :=
  ⟨⟨fun _ => rfl, by decide, by decide, by decide⟩, by decide,
    end_of_batch_last Nat (RingBuffer.new 64 (DefaultEntryFactory Nat))
      (BatchHandler.mk fun _ => false) (fun _ => rfl) 10 14 [] (by decide) (by decide)
      (by decide)⟩

/-- The outer loop with a handler that never throws, over results that each
exceed the previous one: every round delivers the sequences after the previous
result up to its own result. -/
theorem runLoop_ok (T : Type) (rb : RingBuffer T) (handler : BatchHandler)
    (hno : ∀ call, handler.throws call = false) (results : List Int) (next : Int)
    (c : Consumer) (hnext : 0 ≤ next) (hseq : c.sequence_ = next - 1)
    (hcalls : c.calls.map (fun call => call.sequence) =
      (List.range next.toNat).map (fun i : Nat => (i : Int)))
    (hslots : ∀ call ∈ c.calls, call.slot = rb.get call.sequence)
    (hchain : List.Chain (fun a b : Int => a < b) (next - 1) results)
    (hmax : ∀ a ∈ results, a < INT64_MAX) :
    ∃ c1, Consumer.runLoop rb handler next c results = some c1 ∧
      c1.sequence_ = results.getLastD (next - 1) ∧
      c1.waits = c.waits ++ (((next - 1) :: results).dropLast.map fun a => a + 1) ∧
      c1.calls.map (fun call => call.sequence) =
        (List.range (c1.sequence_ + 1).toNat).map (fun i : Nat => (i : Int)) ∧
      (∀ call ∈ c1.calls, call.slot = rb.get call.sequence) ∧
      c1.completions = c.completions := by
  induction results generalizing next c with
  | nil =>
    refine ⟨c, rfl, hseq, by simp, ?_, hslots, rfl⟩
    rw [hseq, hcalls]
    congr 2
    omega
  | cons a later ih =>
    rw [List.chain_cons] at hchain
    obtain ⟨hlt, hchain⟩ := hchain
    have ha := hmax a (List.mem_cons_self _ _)
    have hd := deliver_ok T rb handler hno a ha (a - next + 1).toNat next c.calls
      (by omega) (by omega)
    unfold Consumer.runLoop
    rw [hd]
    simp only
    have hchain1 : List.Chain (fun a b : Int => a < b) (a + 1 - 1) later := by
      have : a + 1 - 1 = a := by omega
      rw [this]
      exact hchain
    have hcalls1 : (c.calls ++ (List.range (a - next + 1).toNat).map fun i : Nat =>
        ({ slot := rb.get (next + i), sequence := next + i,
           end_of_batch := decide (next + i = a) } : HandlerCall)).map
          (fun call => call.sequence) =
        (List.range (a + 1).toNat).map (fun i : Nat => (i : Int)) := by
      rw [List.map_append, hcalls, List.map_map]
      have hsplit : (a + 1).toNat = next.toNat + (a - next + 1).toNat := by omega
      rw [hsplit, List.range_add, List.map_append, List.map_map]
      congr 1
      apply List.map_congr_left
      intro i _
      simp only [Function.comp_def]
      omega
    have hslots1 : ∀ call ∈ c.calls ++ (List.range (a - next + 1).toNat).map fun i : Nat =>
        ({ slot := rb.get (next + i), sequence := next + i,
           end_of_batch := decide (next + i = a) } : HandlerCall),
        call.slot = rb.get call.sequence := by
      intro call hcall
      rcases List.mem_append.1 hcall with h | h
      · exact hslots call h
      · obtain ⟨i, _, hi⟩ := List.mem_map.1 h
        rw [← hi]
    obtain ⟨c1, h1, h2, h3, h4, h5, h6⟩ := ih (a + 1)
      { c with waits := c.waits ++ [next],
               calls := c.calls ++ (List.range (a - next + 1).toNat).map fun i : Nat =>
                 { slot := rb.get (next + i), sequence := next + i,
                   end_of_batch := decide (next + i = a) },
               sequence_ := Sequence.set c.sequence_ a }
      (by omega) (by simp [Sequence.set]) hcalls1 hslots1 hchain1
      (fun x hx => hmax x (List.mem_cons_of_mem _ hx))
    refine ⟨c1, h1, ?_, ?_, h4, h5, h6⟩
    · rw [h2]
      have : a + 1 - 1 = a := by omega
      rw [this]
      cases later <;> rfl
    · rw [h3]
      have : a + 1 - 1 = a := by omega
      rw [this]
      cases later <;> simp

/-- C4. Exactly-once, in-order delivery. `Consumer::run` from consumer sequence
`-1`, with a handler that never throws, over any finite sequence of `waitFor`
results `a_1 .. a_k` (each an `int64_t` below the maximum, so that the loop
counter can pass it) of which each is at least the argument of its call,
that is `a_1 ≥ 0` and `a_i ≥ a_(i-1) + 1`, ends with the consumer sequence at
`a_k` and has passed to `onAvailable` exactly the sequences `0, 1, .., a_k`,
each once and in ascending order, each with the slot at index
`sequence & index_mask_`; `onCompletion` has run once. -/
theorem consumer_delivery_in_order (T : Type) (rb : RingBuffer T) (handler : BatchHandler)
    (hno : ∀ call, handler.throws call = false) (results : List Int)
    (hchain : List.Chain (fun a b : Int => a < b) (-1) results)
    (hmax : ∀ a ∈ results, a < INT64_MAX) :
    ∃ c, Consumer.run rb handler results Consumer.new = some c ∧
      c.sequence_ = results.getLastD (-1) ∧
      c.waits = (((-1) :: results).dropLast.map fun a => a + 1) ∧
      List.Forall₂ (fun target a : Int => target ≤ a) c.waits results ∧
      c.calls.map (fun call => call.sequence) =
        (List.range (c.sequence_ + 1).toNat).map (fun i : Nat => (i : Int)) ∧
      (∀ call ∈ c.calls, call.slot = toU64 call.sequence &&& rb.index_mask_) ∧
      c.completions = 1 := by
  obtain ⟨c1, h1, h2, h3, h4, h5, h6⟩ := runLoop_ok T rb handler hno results 0 Consumer.new
    (le_refl 0) rfl rfl (fun call hcall => by cases hcall) hchain hmax
  have hrun : Consumer.run rb handler results Consumer.new =
      some { c1 with completions := c1.completions + 1 } := by
    unfold Consumer.run
    have h0 : wrapI64 (Sequence.get Consumer.new.sequence_ + 1) = 0 := by decide
    simp only [h0, h1]
  have hw : c1.waits = (((-1) :: results).dropLast.map fun a => a + 1) := by
    rw [h3]
    rfl
  refine ⟨_, hrun, h2, hw, ?_, h4, h5, by simp only [h6]; rfl⟩
  simp only
  rw [hw]
  clear h1 h2 h3 h4 h5 h6 hrun hw hmax
  generalize (-1 : Int) = prev at hchain
  induction results generalizing prev with
  | nil => exact List.Forall₂.nil
  | cons a later ih =>
    rw [List.chain_cons] at hchain
    cases later with
    | nil =>
      simp only [List.dropLast_cons₂, List.dropLast_single, List.map_cons, List.map_nil]
      exact List.Forall₂.cons (by omega) List.Forall₂.nil
    | cons b rest =>
      rw [List.dropLast_cons₂, List.map_cons]
      exact List.Forall₂.cons (by omega) (ih a hchain.2)

/-- C4 on the two batches of scenario S4, `waitFor` returning 9 and then 14 on a
buffer of 64 slots: the handler receives the sequences 0 to 14 in order. -/
theorem consumer_delivery_in_order_witness :
    ((∀ call, (BatchHandler.mk fun _ => false).throws call = false) ∧
      List.Chain (fun a b : Int => a < b) (-1) [9, 14] ∧
      (∀ a ∈ [(9 : Int), 14], a < INT64_MAX)) ∧
    (Option.map (fun c : Consumer => c.calls.map fun call => call.sequence)
        (Consumer.run (RingBuffer.new 64 (DefaultEntryFactory Nat))
          (BatchHandler.mk fun _ => false) [9, 14] Consumer.new) =
      some [0, 1, 2, 3, 4, 5, 6, 7, 8, 9, 10, 11, 12, 13, 14]) ∧
    ∃ c, Consumer.run (RingBuffer.new 64 (DefaultEntryFactory Nat))
        (BatchHandler.mk fun _ => false) [9, 14] Consumer.new = some c ∧
      c.sequence_ = [(9 : Int), 14].getLastD (-1) ∧
      c.waits = (((-1) :: [(9 : Int), 14]).dropLast.map fun a => a + 1) ∧
      List.Forall₂ (fun target a : Int => target ≤ a) c.waits [9, 14] ∧
      c.calls.map (fun call => call.sequence) =
        (List.range (c.sequence_ + 1).toNat).map (fun i : Nat => (i : Int)) ∧
      (∀ call ∈ c.calls, call.slot =
        toU64 call.sequence &&& (RingBuffer.new 64 (DefaultEntryFactory Nat)).index_mask_) ∧
      c.completions = 1 :=
  ⟨⟨fun _ => rfl, List.Chain.cons (by decide) (List.Chain.cons (by decide) List.Chain.nil),
      by decide⟩,
    by decide,
    consumer_delivery_in_order Nat (RingBuffer.new 64 (DefaultEntryFactory Nat))
      (BatchHandler.mk fun _ => false) (fun _ => rfl) [9, 14]
      (List.Chain.cons (by decide) (List.Chain.cons (by decide) List.Chain.nil)) (by decide)⟩

/-! ## Consumer horizon -/

/-- A value returned by `waitFor` on one reading is the minimum of that reading. -/
theorem waitFor_single (ws : WaitStrategyType) (target available cursor : Int)
    (dependents : List Int)
    (h : ConsumerBarrier.waitFor ws target [(cursor, dependents)] = some available) :
    available = getMinimumSequence (some cursor) dependents := by
  rw [barrier_waitFor_eq] at h
  obtain ⟨before, o, after, h1, _, h3, _⟩ := busySpin_some target available _ h
  cases before with
  | nil =>
    have := (List.cons.inj h1).1
    rw [← this] at h3
    exact h3
  | cons p rest =>
    have := (List.cons.inj h1).2
    cases rest <;> cases this

/-- Invariant of a running pipeline, with the part on values held between
`waitFor` and `set`. -/
theorem pipeline_invariant (ws : WaitStrategyType) (dependencies : Nat → List Nat)
    (st : PipelineState) (h : PipelineReachable ws dependencies st) :
    ∀ i, st.sequences i ≤ st.cursor ∧
      (∀ d ∈ dependencies i, st.sequences i ≤ st.sequences d) ∧
      (∀ a, st.pending i = some a →
        st.sequences i ≤ a ∧ a ≤ st.cursor ∧ ∀ d ∈ dependencies i, a ≤ st.sequences d) := by
  induction h with
  | init =>
    intro i
    refine ⟨le_refl _, fun _ _ => le_refl _, ?_⟩
    intro a ha
    cases ha
  | step st st1 _ hstep ih =>
    cases hstep with
    | publish sequence =>
      intro i
      obtain ⟨h1, h2, h3⟩ := ih i
      have hmono : st.cursor ≤ Sequence.setMonotonic st.cursor sequence := by
        unfold Sequence.setMonotonic
        simp only
        split <;> omega
      refine ⟨le_trans h1 hmono, h2, ?_⟩
      intro a ha
      obtain ⟨h4, h5, h6⟩ := h3 a ha
      exact ⟨h4, le_trans h5 hmono, h6⟩
    | waitReturn j target available hret =>
      intro i
      obtain ⟨h1, h2, h3⟩ := ih i
      refine ⟨h1, h2, ?_⟩
      intro a ha
      simp only at ha
      by_cases hij : i = j
      · subst hij
        rw [Function.update_same] at ha
        have ha1 : available = a := Option.some.inj ha
        subst ha1
        have hmin := waitFor_single ws target available _ _ hret
        refine ⟨?_, ?_, ?_⟩
        · rw [hmin]
          apply le_minimumLoop _ _ _ h1
          intro d hd
          obtain ⟨k, hk, hkd⟩ := List.mem_map.1 hd
          rw [← hkd]
          exact h2 k hk
        · rw [hmin]
          exact minimumLoop_le_init _ _
        · intro d hd
          rw [hmin]
          exact minimumLoop_le_mem _ _ _ (List.mem_map_of_mem _ hd)
      · rw [Function.update_noteq hij] at ha
        exact h3 a ha
    | store j available hpend =>
      obtain ⟨hj1, hj2, hj3⟩ := ih j
      obtain ⟨hja, hjc, hjd⟩ := hj3 available hpend
      have hnew : ∀ k, st.sequences k ≤
          Function.update st.sequences j (Sequence.set (st.sequences j) available) k := by
        intro k
        by_cases hkj : k = j
        · subst hkj
          rw [Function.update_same]
          exact hja
        · rw [Function.update_noteq hkj]
      intro i
      obtain ⟨h1, h2, h3⟩ := ih i
      simp only
      by_cases hij : i = j
      · subst hij
        rw [Function.update_same]
        refine ⟨hjc, ?_, ?_⟩
        · intro d hd
          exact le_trans (hjd d hd) (hnew d)
        · intro a ha
          rw [Function.update_same] at ha
          cases ha
      · rw [Function.update_noteq hij, Function.update_noteq hij]
        refine ⟨h1, ?_, ?_⟩
        · intro d hd
          exact le_trans (h2 d hd) (hnew d)
        · intro a ha
          obtain ⟨h4, h5, h6⟩ := h3 a ha
          exact ⟨h4, h5, fun d hd => le_trans (h6 d hd) (hnew d)⟩

/-- C7. Consumer horizon invariant. In every state reached from cursor `-1` and
all consumer sequences `-1` by publishing (the cursor never decreases), by a
`waitFor` returning `available = min(cursor, dependency sequences)` on a reading
of the state, and by the consumer then storing `sequence_.set(available)`, every
consumer's sequence is at most the cursor and at most the sequence of each
consumer in its dependency set. -/
theorem consumer_horizon (ws : WaitStrategyType) (dependencies : Nat → List Nat)
    (st : PipelineState) (h : PipelineReachable ws dependencies st) :
    ∀ i, st.sequences i ≤ st.cursor ∧
      ∀ d ∈ dependencies i, st.sequences i ≤ st.sequences d := by
  intro i
  obtain ⟨h1, h2, _⟩ := pipeline_invariant ws dependencies st h i
  exact ⟨h1, h2⟩

/-- A reachable pipeline state: consumer 1 depends on consumer 0; sequence 5 is
published and consumer 0 completes a round up to it. -/
theorem pipeline_reachable_example :
    PipelineReachable WaitStrategyType.YIELDING (fun i => if i = 1 then [0] else [])
      { cursor := Sequence.setMonotonic (-1) 5
        sequences := Function.update (fun _ => -1) 0 (Sequence.set (-1) 5)
        pending := Function.update (Function.update (fun _ => none) 0 (some 5)) 0 none } :=
  PipelineReachable.step _ _
    (PipelineReachable.step _ _
      (PipelineReachable.step _ _ PipelineReachable.init
        (PipelineStep.publish PipelineState.init 5))
      (PipelineStep.waitReturn
        { cursor := Sequence.setMonotonic (-1) 5, sequences := fun _ => -1,
          pending := fun _ => none } 0 0 5 (by decide)))
    (PipelineStep.store
      { cursor := Sequence.setMonotonic (-1) 5, sequences := fun _ => -1,
        pending := Function.update (fun _ => none) 0 (some 5) } 0 5 (by simp))

/-- C7 after sequence 5 is published and consumer 0, on which consumer 1
depends, has stored 5. -/
theorem consumer_horizon_witness :
    PipelineReachable WaitStrategyType.YIELDING (fun i => if i = 1 then [0] else [])
      { cursor := Sequence.setMonotonic (-1) 5
        sequences := Function.update (fun _ => -1) 0 (Sequence.set (-1) 5)
        pending := Function.update (Function.update (fun _ => none) 0 (some 5)) 0 none } ∧
    ∀ i, Function.update (fun _ => (-1 : Int)) 0 (Sequence.set (-1) 5) i ≤
        Sequence.setMonotonic (-1) 5 ∧
      ∀ d ∈ (fun i => if i = 1 then [0] else []) i,
        Function.update (fun _ => (-1 : Int)) 0 (Sequence.set (-1) 5) i ≤
          Function.update (fun _ => (-1 : Int)) 0 (Sequence.set (-1) 5) d :=
  ⟨pipeline_reachable_example,
    consumer_horizon WaitStrategyType.YIELDING (fun i => if i = 1 then [0] else []) _
      pipeline_reachable_example⟩

/-! ## Engine set-up -/

/-- Set-up step for `createConsumer`. -/
theorem setup_createConsumer (T : Type) (d : Disruptor T) (handler : BatchHandler)
    (dependencies : List Nat) (later : List SetupCall) :
    d.setup (SetupCall.createConsumer handler dependencies :: later) =
      (d.createConsumer handler dependencies).2.setup later := rfl

/-- Set-up step for `getProducerBarrier`. -/
theorem setup_getProducerBarrier (T : Type) (d : Disruptor T) (later : List SetupCall) :
    d.setup (SetupCall.getProducerBarrier :: later) = d.getProducerBarrier.2.setup later := rfl

/-- The call `getProducerBarrier` on an engine whose barrier exists. -/
theorem getProducerBarrier_some (T : Type) (d : Disruptor T) (pb : ProducerBarrier)
    (h : d.producer_barrier_ = some pb) : d.getProducerBarrier = (pb, d) := by
  unfold Disruptor.getProducerBarrier
  rw [h]

/-- The call `getProducerBarrier` on an engine whose barrier is not built yet. -/
theorem getProducerBarrier_none (T : Type) (d : Disruptor T)
    (h : d.producer_barrier_ = none) :
    d.getProducerBarrier =
      ({ gating_sequences_ := d.gating_sequences_ },
        { d with producer_barrier_ := some { gating_sequences_ := d.gating_sequences_ } }) := by
  unfold Disruptor.getProducerBarrier
  rw [h]

/-- Once built, the producer barrier is kept as it is by every later call. -/
theorem setup_keeps_barrier (T : Type) (calls : List SetupCall) (d : Disruptor T)
    (pb : ProducerBarrier) (h : d.producer_barrier_ = some pb) :
    (d.setup calls).producer_barrier_ = some pb := by
  induction calls generalizing d with
  | nil => exact h
  | cons call later ih =>
    cases call with
    | createConsumer handler dependencies =>
      rw [setup_createConsumer]
      exact ih _ h
    | getProducerBarrier =>
      rw [setup_getProducerBarrier, getProducerBarrier_some T d pb h]
      exact ih _ h

/-- Calls that create consumers leave the producer barrier unbuilt. -/
theorem setup_without_barrier (T : Type) (calls : List SetupCall) (d : Disruptor T)
    (h : d.producer_barrier_ = none)
    (hcalls : ∀ call ∈ calls, ∃ handler dependencies,
      call = SetupCall.createConsumer handler dependencies) :
    (d.setup calls).producer_barrier_ = none := by
  induction calls generalizing d with
  | nil => exact h
  | cons call later ih =>
    obtain ⟨handler, dependencies, hcall⟩ := hcalls call (List.mem_cons_self _ _)
    subst hcall
    rw [setup_createConsumer]
    exact ih _ h (fun c hc => hcalls c (List.mem_cons_of_mem _ hc))

/-- Set-up over two lists of calls in a row. -/
theorem setup_append (T : Type) (first second : List SetupCall) (d : Disruptor T) :
    d.setup (first ++ second) = (d.setup first).setup second := by
  induction first generalizing d with
  | nil => rfl
  | cons call later ih =>
    cases call with
    | createConsumer handler dependencies =>
      rw [List.cons_append, setup_createConsumer, setup_createConsumer]
      exact ih _
    | getProducerBarrier =>
      rw [List.cons_append, setup_getProducerBarrier, setup_getProducerBarrier]
      exact ih _

/-- The gating set of the producer barrier is the engine's gating set as it was
at the first call of `getProducerBarrier`; consumers created later are not in
it. -/
theorem barrier_gating_snapshot (T : Type) (d : Disruptor T) (first later : List SetupCall)
    (h : d.producer_barrier_ = none)
    (hfirst : ∀ call ∈ first, ∃ handler dependencies,
      call = SetupCall.createConsumer handler dependencies) :
    (d.setup (first ++ SetupCall.getProducerBarrier :: later)).producer_barrier_ =
      some { gating_sequences_ := (d.setup first).gating_sequences_ } := by
  have hnone := setup_without_barrier T first d h hfirst
  rw [setup_append, setup_getProducerBarrier, getProducerBarrier_none T _ hnone]
  exact setup_keeps_barrier T later _ _ rfl

/-- C9, evaluated where it fails. On an engine of 16 slots, `getProducerBarrier`
followed by `createConsumer` leaves the engine with one consumer, whose sequence
is in the engine's `gating_sequences_`, while the gating set held by the
producer barrier is empty; with that set `nextEntry(17)` is granted at once and
returns 16 although the consumer's sequence is still `-1`. -/
theorem gating_misses_late_consumer :
    ∃ d : Disruptor Nat,
      Disruptor.new 16 ClaimStrategyType.SINGLE_THREADED WaitStrategyType.YIELDING
        (DefaultEntryFactory Nat) = Except.ok d ∧
      (d.setup [SetupCall.getProducerBarrier,
        SetupCall.createConsumer (BatchHandler.mk fun _ => false) []]).consumers_.length = 1 ∧
      (d.setup [SetupCall.getProducerBarrier,
        SetupCall.createConsumer (BatchHandler.mk fun _ => false) []]).gating_sequences_ = [0] ∧
      (d.setup [SetupCall.getProducerBarrier,
        SetupCall.createConsumer (BatchHandler.mk fun _ => false) []]).getProducerBarrier.1
          = { gating_sequences_ := [] } ∧
      (ProducerBarrier.nextEntry 17 d.claim_strategy_
        [List.map (fun _ => -1)
          (d.setup [SetupCall.getProducerBarrier,
            SetupCall.createConsumer (BatchHandler.mk fun _ => false)
              []]).getProducerBarrier.1.gating_sequences_]).1 = some 16 :=
  ⟨_, rfl, by decide, by decide, by decide, by decide⟩

/-! ## Engine construction -/

/-- C10 as stated fails: construction with requested size 0 and the
single-producer claim strategy succeeds, and the engine produced has capacity
0, index mask `2 ^ 64 - 1` and a claim strategy of buffer size 0. -/
theorem zero_capacity_accepted :
    ∃ d : Disruptor Nat,
      Disruptor.new 0 ClaimStrategyType.SINGLE_THREADED WaitStrategyType.YIELDING
        (DefaultEntryFactory Nat) = Except.ok d ∧
      d.ring_buffer_.getBufferSize = 0 ∧
      d.ring_buffer_.index_mask_ = 2 ^ 64 - 1 ∧
      d.claim_strategy_.buffer_size_ = 0 :=
  ⟨_, rfl, by decide, by decide, by decide⟩

/-- C10, amended. Construction with requested size 0 raises no error on account
of the size: for every entry factory and wait strategy it succeeds exactly when
the claim strategy is `SINGLE_THREADED` and raises exactly when it is
`MULTI_THREADED`. -/
theorem zero_capacity_construction (T : Type) (f : EntryFactory T)
    (claim_type : ClaimStrategyType) (wait_type : WaitStrategyType) :
    ((∃ d, Disruptor.new 0 claim_type wait_type f = Except.ok d) ↔
      claim_type = ClaimStrategyType.SINGLE_THREADED) ∧
    ((∃ msg, Disruptor.new 0 claim_type wait_type f = Except.error msg) ↔
      claim_type = ClaimStrategyType.MULTI_THREADED) := by
  cases claim_type
  · refine ⟨⟨fun _ => rfl, fun _ => ⟨_, rfl⟩⟩, ⟨?_, fun h => by cases h⟩⟩
    rintro ⟨msg, hmsg⟩
    cases hmsg
  · refine ⟨⟨?_, fun h => by cases h⟩, ⟨fun _ => rfl, fun _ => ⟨_, rfl⟩⟩⟩
    rintro ⟨d, hd⟩
    cases hd

/-- C11. Multi-producer mode is rejected, and only it. For every requested
buffer size (1 or more; the size plays no part), every wait-strategy type and
every entry factory, the constructor raises an error exactly when the claim
strategy type is
`MULTI_THREADED`; with `SINGLE_THREADED` it succeeds, and the engine holds a
fresh `SingleThreadedClaimStrategy` whose buffer size is the rounded capacity
of the ring buffer, together with the wait strategy asked for. -/
theorem multi_producer_rejected (T : Type) (f : EntryFactory T) (buffer_size : Nat)
    (claim_type : ClaimStrategyType) (wait_type : WaitStrategyType) :
    ((∃ msg, Disruptor.new buffer_size claim_type wait_type f = Except.error msg) ↔
      claim_type = ClaimStrategyType.MULTI_THREADED) ∧
    (claim_type = ClaimStrategyType.SINGLE_THREADED →
      ∃ d, Disruptor.new buffer_size claim_type wait_type f = Except.ok d ∧
        d.claim_strategy_ = SingleThreadedClaimStrategy.new d.ring_buffer_.getBufferSize ∧
        d.claim_strategy_.buffer_size_ = roundUpToPowerOfTwo buffer_size ∧
        d.ring_buffer_.getBufferSize = roundUpToPowerOfTwo buffer_size ∧
        d.wait_strategy_ = wait_type) := by
  cases claim_type
  · refine ⟨⟨?_, fun h => by cases h⟩, fun _ => ⟨_, rfl, rfl, rfl, rfl, ?_⟩⟩
    · rintro ⟨msg, hmsg⟩
      cases hmsg
    · cases wait_type <;> rfl
  · refine ⟨⟨fun _ => rfl, fun _ => ⟨_, rfl⟩⟩, fun h => by cases h⟩

/-- C11 for the 16 slots and defaults of the ring buffer demo. -/
theorem multi_producer_rejected_witness :
    ((∃ msg, Disruptor.new 16 ClaimStrategyType.SINGLE_THREADED WaitStrategyType.YIELDING
        (DefaultEntryFactory Nat) = Except.error msg) ↔
      ClaimStrategyType.SINGLE_THREADED = ClaimStrategyType.MULTI_THREADED) ∧
    (ClaimStrategyType.SINGLE_THREADED = ClaimStrategyType.SINGLE_THREADED →
      ∃ d, Disruptor.new 16 ClaimStrategyType.SINGLE_THREADED WaitStrategyType.YIELDING
          (DefaultEntryFactory Nat) = Except.ok d ∧
        d.claim_strategy_ = SingleThreadedClaimStrategy.new d.ring_buffer_.getBufferSize ∧
        d.claim_strategy_.buffer_size_ = roundUpToPowerOfTwo 16 ∧
        d.ring_buffer_.getBufferSize = roundUpToPowerOfTwo 16 ∧
        d.wait_strategy_ = WaitStrategyType.YIELDING) :=
  multi_producer_rejected Nat (DefaultEntryFactory Nat) 16
    ClaimStrategyType.SINGLE_THREADED WaitStrategyType.YIELDING

/-! ## Slot mapping on the whole `int64_t` range -/

/-- C12. Slot mapping. For a ring buffer whose capacity `c` is a power of two
(at most `2 ^ 63`, as a `size_t` allows) and whose mask is `c - 1`, and for every
sequence `s`, negative ones included, the index `s & (c - 1)` that
`RingBuffer::get` computes after conversion to unsigned is the non-negative
remainder `s mod c`, hence below `c`; `get(s)` and `get(s + c)` are the same
slot, also when `s + c` is wrapped to `int64_t`. -/
theorem slot_mapping (T : Type) (rb : RingBuffer T) (k : Nat) (hk : k ≤ 63)
    (hsize : rb.buffer_size_ = 2 ^ k) (hmask : rb.index_mask_ = decU64 rb.buffer_size_)
    (s : Int) :
    rb.get s = toU64 s &&& (rb.getBufferSize - 1) ∧
    ((rb.get s : Nat) : Int) = s % (rb.getBufferSize : Int) ∧
    rb.get s < rb.getBufferSize ∧
    rb.get (s + (rb.getBufferSize : Int)) = rb.get s ∧
    rb.get (wrapI64 (s + (rb.getBufferSize : Int))) = rb.get s := by
  have hmask1 : rb.index_mask_ = 2 ^ k - 1 := by rw [hmask, hsize, decU64_two_pow]
  have hcap : rb.getBufferSize = 2 ^ k := hsize
  have hcapI : (rb.getBufferSize : Int) = 2 ^ k := by
    rw [hcap]
    push_cast
    rfl
  have hem := get_eq_emod T rb k (by omega) hmask1
  have hpos : (0 : Int) < 2 ^ k := by positivity
  have hdvd : (2 : Int) ^ k ∣ 2 ^ 64 := pow_dvd_pow 2 (by omega)
  have hshift : ∀ x : Int, (x + 2 ^ k) % 2 ^ k = x % 2 ^ k := fun x => Int.add_emod_self
  refine ⟨?_, ?_, ?_, ?_, ?_⟩
  · unfold RingBuffer.get
    rw [hmask1, hcap]
  · rw [hcapI]
    exact hem s
  · have h1 := hem s
    have h2 : s % 2 ^ k < 2 ^ k := Int.emod_lt_of_pos s hpos
    rw [hcap]
    have h3 : ((rb.get s : Nat) : Int) < ((2 ^ k : Nat) : Int) := by
      rw [h1]
      push_cast
      exact h2
    exact Int.ofNat_lt.1 h3
  · rw [hcapI]
    have h1 := hem (s + 2 ^ k)
    rw [hshift, ← hem s] at h1
    exact Int.ofNat_inj.1 h1
  · have h1 := hem (wrapI64 (s + (rb.getBufferSize : Int)))
    have h2 : wrapI64 (s + (rb.getBufferSize : Int)) % 2 ^ k = s % 2 ^ k := by
      rw [hcapI]
      unfold wrapI64
      obtain ⟨q, hq⟩ := hdvd
      have h3 : (s + 2 ^ k + 2 ^ 63) % 2 ^ 64 - 2 ^ 63 =
          s + 2 ^ k + (-((s + 2 ^ k + 2 ^ 63) / 2 ^ 64) * q) * 2 ^ k := by
        have h4 := Int.emod_add_ediv (s + 2 ^ k + 2 ^ 63) (2 ^ 64)
        have h5 : (2 : Int) ^ 64 * ((s + 2 ^ k + 2 ^ 63) / 2 ^ 64) =
            ((s + 2 ^ k + 2 ^ 63) / 2 ^ 64) * q * 2 ^ k := by
          rw [hq]
          ring
        linarith
      rw [h3, Int.add_mul_emod_self, hshift]
    rw [h2, ← hem s] at h1
    exact Int.ofNat_inj.1 h1

/-- C12 on a buffer built for 16 slots at the initial sequence `-1`, which maps
to slot 15. -/
theorem slot_mapping_witness :
    ((4 : Nat) ≤ 63 ∧ (RingBuffer.new 16 (DefaultEntryFactory Nat)).buffer_size_ = 2 ^ 4 ∧
      (RingBuffer.new 16 (DefaultEntryFactory Nat)).index_mask_ =
        decU64 (RingBuffer.new 16 (DefaultEntryFactory Nat)).buffer_size_) ∧
    (RingBuffer.new 16 (DefaultEntryFactory Nat)).get (-1) = 15 ∧
    ((RingBuffer.new 16 (DefaultEntryFactory Nat)).get (-1) =
      toU64 (-1) &&& ((RingBuffer.new 16 (DefaultEntryFactory Nat)).getBufferSize - 1) ∧
    (((RingBuffer.new 16 (DefaultEntryFactory Nat)).get (-1) : Nat) : Int) =
      (-1) % ((RingBuffer.new 16 (DefaultEntryFactory Nat)).getBufferSize : Int) ∧
    (RingBuffer.new 16 (DefaultEntryFactory Nat)).get (-1) <
      (RingBuffer.new 16 (DefaultEntryFactory Nat)).getBufferSize ∧
    (RingBuffer.new 16 (DefaultEntryFactory Nat)).get
        (-1 + ((RingBuffer.new 16 (DefaultEntryFactory Nat)).getBufferSize : Int)) =
      (RingBuffer.new 16 (DefaultEntryFactory Nat)).get (-1) ∧
    (RingBuffer.new 16 (DefaultEntryFactory Nat)).get
        (wrapI64 (-1 + ((RingBuffer.new 16 (DefaultEntryFactory Nat)).getBufferSize : Int))) =
      (RingBuffer.new 16 (DefaultEntryFactory Nat)).get (-1)) :=
  ⟨⟨by decide, by decide, by decide⟩, by decide,
    slot_mapping Nat (RingBuffer.new 16 (DefaultEntryFactory Nat)) 4 (by decide) (by decide)
      (by decide) (-1)⟩

/-! ## Publishing -/

/-- The monotonic store leaves the maximum of the old value and the argument. -/
theorem setMonotonic_eq_max (c v : Int) : Sequence.setMonotonic c v = max c v := by
  unfold Sequence.setMonotonic
  simp only
  by_cases h : v > c
  · rw [if_pos h, max_eq_right (by omega)]
  · rw [if_neg h, max_eq_left (by omega)]

/-- The cursor after a sequence of `publish` calls. -/
theorem publish_foldl_cursor (T : Type) (published : List Int) (rb : RingBuffer T) :
    (published.foldl RingBuffer.publish rb).cursor_ = published.foldl max rb.cursor_ := by
  induction published generalizing rb with
  | nil => rfl
  | cons v later ih =>
    rw [List.foldl_cons, List.foldl_cons, ih]
    unfold RingBuffer.publish
    simp only
    rw [setMonotonic_eq_max]

/-- A running maximum is at least its start. -/
theorem le_foldl_max (l : List Int) (c : Int) : c ≤ l.foldl max c := by
  induction l generalizing c with
  | nil => exact le_refl c
  | cons v later ih =>
    rw [List.foldl_cons]
    exact le_trans (le_max_left c v) (ih (max c v))

/-- C13. Monotonic publish. Without interference, `Sequence::setMonotonic(v)` on
a current value `c` leaves `max(c, v)`: `v` when `v > c`, and `c` when `v ≤ c`.
So after any sequence of `RingBuffer::publish` calls the cursor is the maximum
of its earlier value and all published arguments, it has not decreased at any
point of the sequence, and on a ring buffer as constructed it is the maximum
of `-1` and all published arguments. -/
theorem monotonic_publish (T : Type) (rb : RingBuffer T) (c v : Int)
    (published more : List Int) (size : Nat) (f : EntryFactory T) :
    Sequence.setMonotonic c v = max c v ∧
    (v > c → Sequence.setMonotonic c v = v) ∧
    (v ≤ c → Sequence.setMonotonic c v = c) ∧
    (rb.publish v).cursor_ = max rb.cursor_ v ∧
    (published.foldl RingBuffer.publish rb).cursor_ = published.foldl max rb.cursor_ ∧
    rb.cursor_ ≤ (published.foldl RingBuffer.publish rb).cursor_ ∧
    (published.foldl RingBuffer.publish rb).cursor_ ≤
      ((published ++ more).foldl RingBuffer.publish rb).cursor_ ∧
    (published.foldl RingBuffer.publish (RingBuffer.new size f)).cursor_ =
      published.foldl max (-1) := by
  refine ⟨setMonotonic_eq_max c v, ?_, ?_, ?_, publish_foldl_cursor T published rb, ?_, ?_, ?_⟩
  · intro h
    rw [setMonotonic_eq_max, max_eq_right (by omega)]
  · intro h
    rw [setMonotonic_eq_max, max_eq_left h]
  · unfold RingBuffer.publish
    simp only
    rw [setMonotonic_eq_max]
  · rw [publish_foldl_cursor]
    exact le_foldl_max published rb.cursor_
  · rw [List.foldl_append, publish_foldl_cursor T more]
    exact le_foldl_max more _
  · rw [publish_foldl_cursor]
    rfl

/-- C13 on the ring buffer demo: publishing 0 to 4 and then 2 again on a fresh
buffer leaves the cursor at 4. -/
theorem monotonic_publish_witness :
    ([0, 1, 2, 3, 4, 2].foldl RingBuffer.publish
      (RingBuffer.new 16 (DefaultEntryFactory Nat))).cursor_ = 4 := by
  rw [(monotonic_publish Nat (RingBuffer.new 16 (DefaultEntryFactory Nat)) 0 0
    [0, 1, 2, 3, 4, 2] [] 16 (DefaultEntryFactory Nat)).2.2.2.2.2.2.2]
  decide

/-- C16. Batch publish equivalence. For every ring buffer state and every `lo`
and `hi`, whatever their order, `RingBuffer::publish(lo, hi)` leaves the ring
buffer in the state `RingBuffer::publish(hi)` leaves it in, and
`ProducerBarrier::commit(lo, hi)` has the effect of
`ProducerBarrier::commit(hi)`; the cursor becomes `max(cursor, hi)`. -/
theorem batch_publish_equiv (T : Type) (rb : RingBuffer T) (lo hi : Int) :
    rb.publishRange lo hi = rb.publish hi ∧
    ProducerBarrier.commitRange rb lo hi = ProducerBarrier.commit rb hi ∧
    ProducerBarrier.commit rb hi = rb.publish hi ∧
    (rb.publishRange lo hi).cursor_ = max rb.cursor_ hi := by
  refine ⟨rfl, rfl, rfl, ?_⟩
  unfold RingBuffer.publishRange
  simp only
  rw [setMonotonic_eq_max]

/-! ## Entry access -/

/-- C20. Producer entry access touches one slot only. For every ring buffer
state and every sequence `s`, `ProducerBarrier::getEntry(s)` returns the slot at
index `s & index_mask_` and applies the factory's `reset` to that slot; every
other slot, the number of slots, the cursor, the size, the mask and the factory
are unchanged. When `reset` does nothing, as in `DefaultEntryFactory`, the whole
state is unchanged. `ConsumerBarrier::getEntry(s)` returns the same slot and
changes nothing. -/
theorem getEntry_frame (T : Type) (rb : RingBuffer T) (s : Int) :
    (ProducerBarrier.getEntry rb s).1 = toU64 s &&& rb.index_mask_ ∧
    (ProducerBarrier.getEntry rb s).2.entries_[toU64 s &&& rb.index_mask_]? =
      (rb.entries_[toU64 s &&& rb.index_mask_]?).map rb.entry_factory_.reset ∧
    (∀ j, j ≠ toU64 s &&& rb.index_mask_ →
      (ProducerBarrier.getEntry rb s).2.entries_[j]? = rb.entries_[j]?) ∧
    (ProducerBarrier.getEntry rb s).2.entries_.length = rb.entries_.length ∧
    (ProducerBarrier.getEntry rb s).2.cursor_ = rb.cursor_ ∧
    (ProducerBarrier.getEntry rb s).2.buffer_size_ = rb.buffer_size_ ∧
    (ProducerBarrier.getEntry rb s).2.index_mask_ = rb.index_mask_ ∧
    (ProducerBarrier.getEntry rb s).2.entry_factory_ = rb.entry_factory_ ∧
    ((∀ t, rb.entry_factory_.reset t = t) → (ProducerBarrier.getEntry rb s).2 = rb) ∧
    ConsumerBarrier.getEntry rb s = (ProducerBarrier.getEntry rb s).1 := by
  refine ⟨rfl, ?_, ?_, ?_, rfl, rfl, rfl, rfl, ?_, rfl⟩
  · show (List.modify rb.entry_factory_.reset (toU64 s &&& rb.index_mask_) rb.entries_)[
      toU64 s &&& rb.index_mask_]? = _
    rw [List.getElem?_modify_eq]
    rfl
  · intro j hj
    show (List.modify rb.entry_factory_.reset (toU64 s &&& rb.index_mask_) rb.entries_)[j]? = _
    exact List.getElem?_modify_ne _ _ (Ne.symm hj)
  · show (List.modify rb.entry_factory_.reset (toU64 s &&& rb.index_mask_)
      rb.entries_).length = _
    exact List.length_modify _ _ _
  · intro hreset
    have hid : rb.entry_factory_.reset = id := funext hreset
    show ({ rb with
      entries_ := List.modify rb.entry_factory_.reset (toU64 s &&& rb.index_mask_)
        rb.entries_ } : RingBuffer T) = rb
    rw [hid, List.modify_id]

/-- C20 on a 4-slot buffer of counters whose factory resets a slot to 0: access
to sequence 5 resets slot 1 and no other; with the default factory the buffer
stays as it is. -/
theorem getEntry_frame_witness :
    (ProducerBarrier.getEntry
      ({ buffer_size_ := 4, index_mask_ := 3, entries_ := [7, 8, 9, 10], cursor_ := 4,
         entry_factory_ := { construct := 0, reset := fun _ => 0 } } : RingBuffer Nat) 5).1 = 1 ∧
    (ProducerBarrier.getEntry
      ({ buffer_size_ := 4, index_mask_ := 3, entries_ := [7, 8, 9, 10], cursor_ := 4,
         entry_factory_ := { construct := 0, reset := fun _ => 0 } } : RingBuffer Nat)
        5).2.entries_ = [7, 0, 9, 10] ∧
    (ProducerBarrier.getEntry (RingBuffer.new 4 (DefaultEntryFactory Nat)) 5).2 =
      RingBuffer.new 4 (DefaultEntryFactory Nat) :=
  ⟨by decide, by decide,
    (getEntry_frame Nat (RingBuffer.new 4 (DefaultEntryFactory Nat)) 5).2.2.2.2.2.2.2.2.1
      (fun _ => rfl)⟩

/-! ## Claiming and publishing through the producer barrier -/

/-- Effect of `nextEntry(n)` on the claim strategy: the buffer size is kept;
while the call is waiting the last assigned sequence is kept, and when it
returns, it returns the wrapped sum `next_value_ + n`, which is stored. -/
theorem nextEntry_fields (n : Int) (reads : List (List Int)) (cs : SingleThreadedClaimStrategy) :
    (ProducerBarrier.nextEntry n cs reads).2.buffer_size_ = cs.buffer_size_ ∧
    ((ProducerBarrier.nextEntry n cs reads).1 = none →
      (ProducerBarrier.nextEntry n cs reads).2.next_value_ = cs.next_value_) ∧
    (∀ s, (ProducerBarrier.nextEntry n cs reads).1 = some s →
      s = wrapI64 (cs.next_value_ + n) ∧
      (ProducerBarrier.nextEntry n cs reads).2.next_value_ = s) := by
  induction reads generalizing cs with
  | nil =>
    refine ⟨rfl, fun _ => rfl, ?_⟩
    intro s hs
    cases hs
  | cons gating later ih =>
    obtain ⟨hb, hnv, _, _⟩ := hasAvailableCapacity_fields cs n gating
    unfold ProducerBarrier.nextEntry
    simp only
    by_cases hgrant : (cs.hasAvailableCapacity n gating).1 = true
    · rw [if_pos hgrant]
      refine ⟨hb, ?_, ?_⟩
      · intro h
        cases h
      · intro s hs
        have hs1 : ((cs.hasAvailableCapacity n gating).2.next n).1 = s := Option.some.inj hs
        have hs2 : ((cs.hasAvailableCapacity n gating).2.next n).1 =
            wrapI64 (cs.next_value_ + n) := by
          unfold SingleThreadedClaimStrategy.next
          simp only
          rw [hnv]
        refine ⟨by rw [← hs1, hs2], ?_⟩
        rw [← hs1]
        rfl
    · rw [if_neg hgrant]
      obtain ⟨h1, h2, h3⟩ := ih (cs.hasAvailableCapacity n gating).2
      refine ⟨by rw [h1, hb], ?_, ?_⟩
      · intro h
        rw [h2 h, hnv]
      · intro s hs
        obtain ⟨h4, h5⟩ := h3 s hs
        rw [hnv] at h4
        exact ⟨h4, h5⟩

/-- The engine a successful construction returns. -/
theorem new_ok_fields (T : Type) (f : EntryFactory T) (size : Nat)
    (claim_type : ClaimStrategyType) (wait_type : WaitStrategyType) (d : Disruptor T)
    (h : Disruptor.new size claim_type wait_type f = Except.ok d) :
    d.ring_buffer_ = RingBuffer.new size f ∧
    d.claim_strategy_ = SingleThreadedClaimStrategy.new (RingBuffer.new size f).getBufferSize ∧
    d.producer_barrier_ = none ∧ d.consumers_ = [] ∧ d.gating_sequences_ = [] := by
  cases claim_type
  · have h1 := Except.ok.inj h
    rw [← h1]
    exact ⟨rfl, rfl, rfl, rfl, rfl⟩
  · cases h

/-- Invariant of the producer operations: the cursor is at least `-1` and at
most the last assigned sequence. -/
theorem barrier_invariant (T : Type) (d0 d : Disruptor T)
    (h0 : d0.ring_buffer_.cursor_ = -1) (h1 : d0.claim_strategy_.next_value_ = -1)
    (hreach : BarrierReachable d0 d) :
    -1 ≤ d.ring_buffer_.cursor_ ∧ d.ring_buffer_.cursor_ ≤ d.claim_strategy_.next_value_ := by
  induction hreach with
  | init =>
    rw [h0, h1]
    exact ⟨le_refl _, le_refl _⟩
  | step d d1 _ hstep ih =>
    obtain ⟨hlow, hle⟩ := ih
    cases hstep with
    | nextEntry n reads hn hmax =>
      obtain ⟨_, hnone, hsome⟩ := nextEntry_fields n reads d.claim_strategy_
      refine ⟨hlow, ?_⟩
      show d.ring_buffer_.cursor_ ≤
        (ProducerBarrier.nextEntry n d.claim_strategy_ reads).2.next_value_
      cases hres : (ProducerBarrier.nextEntry n d.claim_strategy_ reads).1 with
      | none =>
        rw [hnone hres]
        exact hle
      | some s =>
        obtain ⟨hs, hstore⟩ := hsome s hres
        rw [hstore, hs]
        unfold INT64_MAX at hmax
        unfold wrapI64
        omega
    | getEntry sequence => exact ⟨hlow, hle⟩
    | commit sequence hseq =>
      show -1 ≤ Sequence.setMonotonic d.ring_buffer_.cursor_ sequence ∧
        Sequence.setMonotonic d.ring_buffer_.cursor_ sequence ≤ d.claim_strategy_.next_value_
      rw [setMonotonic_eq_max]
      exact ⟨le_trans hlow (le_max_left _ _), max_le hle hseq⟩
    | commitRange lo hi hseq =>
      show -1 ≤ Sequence.setMonotonic d.ring_buffer_.cursor_ hi ∧
        Sequence.setMonotonic d.ring_buffer_.cursor_ hi ≤ d.claim_strategy_.next_value_
      rw [setMonotonic_eq_max]
      exact ⟨le_trans hlow (le_max_left _ _), max_le hle hseq⟩

/-- C17. Claim-before-publish invariant. In every state reached from a freshly
constructed engine through the producer barrier's `nextEntry(n)` with `n ≥ 1`
(and `next_value_ + n` within `int64_t`), `getEntry`, `commit(s)` and
`commit(lo, hi)`, where each committed `s`, respectively `hi`, is at most the
claim strategy's current last assigned sequence, that last assigned sequence is
at least the ring buffer's cursor. -/
theorem claim_before_publish (T : Type) (f : EntryFactory T) (size : Nat)
    (wait_type : WaitStrategyType) (d0 d : Disruptor T)
    (hnew : Disruptor.new size ClaimStrategyType.SINGLE_THREADED wait_type f = Except.ok d0)
    (hreach : BarrierReachable d0 d) :
    d.ring_buffer_.cursor_ ≤ d.claim_strategy_.next_value_ := by
  obtain ⟨hrb, hcs, _, _, _⟩ :=
    new_ok_fields T f size ClaimStrategyType.SINGLE_THREADED wait_type d0 hnew
  have h0 : d0.ring_buffer_.cursor_ = -1 := by rw [hrb]; rfl
  have h1 : d0.claim_strategy_.next_value_ = -1 := by rw [hcs]; rfl
  exact (barrier_invariant T d0 d h0 h1 hreach).2

/-- C17 on an engine of 16 slots after `nextEntry(2)` with no gating sequence
and `commit(0, 1)`: cursor and last assigned sequence are both 1. -/
theorem claim_before_publish_witness :
    ∃ d0 d : Disruptor Nat,
      Disruptor.new 16 ClaimStrategyType.SINGLE_THREADED WaitStrategyType.YIELDING
        (DefaultEntryFactory Nat) = Except.ok d0 ∧
      BarrierReachable d0 d ∧
      d.ring_buffer_.cursor_ = 1 ∧ d.claim_strategy_.next_value_ = 1 ∧
      d.ring_buffer_.cursor_ ≤ d.claim_strategy_.next_value_ := by
  have hreach := BarrierReachable.step _ _
    (BarrierReachable.step _ _
      (BarrierReachable.init :
        BarrierReachable
          ({ ring_buffer_ := RingBuffer.new 16 (DefaultEntryFactory Nat)
             claim_strategy_ := SingleThreadedClaimStrategy.new
               (RingBuffer.new 16 (DefaultEntryFactory Nat)).getBufferSize
             wait_strategy_ := WaitStrategyType.YIELDING
             producer_barrier_ := none
             consumers_ := []
             consumer_barriers_ := []
             gating_sequences_ := [] } : Disruptor Nat) _)
      (BarrierStep.nextEntry _ 2 [[]] (by decide) (by decide)))
    (BarrierStep.commitRange _ 0 1 (by decide))
  exact ⟨_, _, rfl, hreach, by decide, by decide,
    claim_before_publish Nat (DefaultEntryFactory Nat) 16 WaitStrategyType.YIELDING _ _ rfl
      hreach⟩

/-! ## Publishing loop -/

/-- A capacity check is granted when the wrap point is at most the minimum of
the gating values it can read. -/
theorem hasAvailableCapacity_of_le (cs : SingleThreadedClaimStrategy) (n : Int)
    (g : List Int) (h : cs.wrapPoint n ≤ SingleThreadedClaimStrategy.getMinimumSequence g) :
    (cs.hasAvailableCapacity n g).1 = true := by
  unfold SingleThreadedClaimStrategy.hasAvailableCapacity
  simp only
  by_cases h1 : cs.wrapPoint n > cs.cached_value_
  · rw [if_pos h1, if_neg (by omega)]
  · rw [if_neg h1]

/-- A capacity check leaves the wrap point of a later check as it is. -/
theorem wrapPoint_after_check (cs : SingleThreadedClaimStrategy) (n : Int) (g : List Int) :
    (cs.hasAvailableCapacity n g).2.wrapPoint n = cs.wrapPoint n := by
  obtain ⟨hb, hnv, _, _⟩ := hasAvailableCapacity_fields cs n g
  unfold SingleThreadedClaimStrategy.wrapPoint
  rw [hb, hnv]

/-- The call `nextEntry(n)` returns once one of its readings of the gating
values leaves room for the claim. -/
theorem nextEntry_returns (n : Int) (reads : List (List Int)) (cs : SingleThreadedClaimStrategy)
    (h : ∃ g ∈ reads, cs.wrapPoint n ≤ SingleThreadedClaimStrategy.getMinimumSequence g) :
    ∃ s, (ProducerBarrier.nextEntry n cs reads).1 = some s := by
  induction reads generalizing cs with
  | nil =>
    obtain ⟨g, hg, _⟩ := h
    cases hg
  | cons gating later ih =>
    unfold ProducerBarrier.nextEntry
    simp only
    by_cases hgrant : (cs.hasAvailableCapacity n gating).1 = true
    · rw [if_pos hgrant]
      exact ⟨_, rfl⟩
    · rw [if_neg hgrant]
      apply ih
      obtain ⟨g, hg, hle⟩ := h
      rcases List.mem_cons.1 hg with h1 | h1
      · subst h1
        exact absurd (hasAvailableCapacity_of_le cs n g hle) hgrant
      · exact ⟨g, h1, by rw [wrapPoint_after_check]; exact hle⟩

/-- Effect of one iteration of the publishing loop that gets its claim. -/
theorem producerCycle_some (T : Type) (d d1 : Disruptor T) (event : T)
    (reads : List (List Int)) (s : Int) (h : producerCycle d event reads = some (s, d1)) :
    s = wrapI64 (d.claim_strategy_.next_value_ + 1) ∧
    d1.claim_strategy_.next_value_ = s ∧
    d1.claim_strategy_.buffer_size_ = d.claim_strategy_.buffer_size_ ∧
    d1.ring_buffer_.cursor_ = max d.ring_buffer_.cursor_ s := by
  obtain ⟨hb, _, hsome⟩ := nextEntry_fields 1 reads d.claim_strategy_
  unfold producerCycle at h
  simp only at h
  cases hres : (ProducerBarrier.nextEntry 1 d.claim_strategy_ reads).1 with
  | none =>
    rw [hres] at h
    cases h
  | some s1 =>
    rw [hres] at h
    simp only [Option.some.injEq, Prod.mk.injEq] at h
    obtain ⟨hs, hd⟩ := h
    obtain ⟨h1, h2⟩ := hsome s1 hres
    subst hs
    rw [← hd]
    refine ⟨h1, h2, hb, ?_⟩
    show Sequence.setMonotonic d.ring_buffer_.cursor_ s1 = _
    exact setMonotonic_eq_max _ _

/-- An iteration of the publishing loop gets its claim when `nextEntry` returns. -/
theorem producerCycle_returns (T : Type) (d : Disruptor T) (event : T)
    (reads : List (List Int)) (s : Int)
    (h : (ProducerBarrier.nextEntry 1 d.claim_strategy_ reads).1 = some s) :
    ∃ r, producerCycle d event reads = some r := by
  unfold producerCycle
  simp only
  rw [h]
  exact ⟨_, rfl⟩

/-- The publishing loop from an engine whose last assigned sequence and cursor
are both `j - 1`: the iterations claim `j, j + 1, ..` and the cursor follows. -/
theorem producerCycles_spec (T : Type) (cycles : List (T × List (List Int)))
    (d d1 : Disruptor T) (j : Int) (sequences : List Int)
    (hnext : d.claim_strategy_.next_value_ = j - 1) (hcursor : d.ring_buffer_.cursor_ = j - 1)
    (hj : 0 ≤ j) (hk : j + (cycles.length : Int) ≤ 2 ^ 63)
    (h : producerCycles d cycles = some (sequences, d1)) :
    sequences = (List.range cycles.length).map (fun i : Nat => j + (i : Int)) ∧
    d1.ring_buffer_.cursor_ = j + (cycles.length : Int) - 1 ∧
    d1.claim_strategy_.next_value_ = j + (cycles.length : Int) - 1 := by
  induction cycles generalizing d j sequences with
  | nil =>
    unfold producerCycles at h
    simp only [Option.some.injEq, Prod.mk.injEq] at h
    obtain ⟨h1, h2⟩ := h
    subst h1
    subst h2
    simp only [List.length_nil, List.range_zero, List.map_nil, Nat.cast_zero, add_zero]
    exact ⟨trivial, hcursor, hnext⟩
  | cons cycle later ih =>
    obtain ⟨event, reads⟩ := cycle
    unfold producerCycles at h
    rw [List.length_cons] at hk ⊢
    push_cast at hk ⊢
    cases hc : producerCycle d event reads with
    | none =>
      rw [hc] at h
      cases h
    | some r =>
      obtain ⟨s, d2⟩ := r
      rw [hc] at h
      simp only at h
      obtain ⟨hs, hn2, _, hc2⟩ := producerCycle_some T d d2 event reads s hc
      have hsj : s = j := by
        rw [hs, hnext]
        unfold wrapI64
        omega
      cases hl : producerCycles d2 later with
      | none =>
        rw [hl] at h
        cases h
      | some r2 =>
        obtain ⟨sequences2, d3⟩ := r2
        rw [hl] at h
        simp only [Option.some.injEq, Prod.mk.injEq] at h
        obtain ⟨h1, h2⟩ := h
        subst h2
        have hcur : d2.ring_buffer_.cursor_ = j + 1 - 1 := by
          rw [hc2, hcursor, hsj, max_eq_right (by omega)]
          omega
        obtain ⟨i1, i2, i3⟩ := ih d2 (j + 1) sequences2 (by rw [hn2, hsj]; omega) hcur
          (by omega) (by omega) hl
        refine ⟨?_, by rw [i2]; omega, by rw [i3]; omega⟩
        rw [← h1, i1, hsj, List.range_succ_eq_map, List.map_cons, List.map_map]
        simp only [Nat.cast_zero, add_zero, List.cons.injEq, true_and]
        apply List.map_congr_left
        intro i _
        simp only [Function.comp_def, Nat.succ_eq_add_one, Nat.cast_add, Nat.cast_one]
        omega

/-- The publishing loop completes when every iteration has a reading of the
gating values that leaves room for its claim. -/
theorem producerCycles_returns (T : Type) (cycles : List (T × List (List Int)))
    (d : Disruptor T) (j : Int) (hnext : d.claim_strategy_.next_value_ = j - 1)
    (hj : 0 ≤ j) (hk : j + (cycles.length : Int) ≤ 2 ^ 63)
    (hcap : (d.claim_strategy_.buffer_size_ : Int) ≤ 2 ^ 63)
    (hroom : ∀ (i : Nat) (c : T × List (List Int)), cycles[i]? = some c →
      ∃ g ∈ c.2, j + (i : Int) - (d.claim_strategy_.buffer_size_ : Int) ≤
        SingleThreadedClaimStrategy.getMinimumSequence g) :
    ∃ r, producerCycles d cycles = some r := by
  induction cycles generalizing d j with
  | nil => exact ⟨_, rfl⟩
  | cons cycle later ih =>
    obtain ⟨event, reads⟩ := cycle
    rw [List.length_cons] at hk
    push_cast at hk
    obtain ⟨g, hg, hle⟩ := hroom 0 (event, reads) List.getElem?_cons_zero
    have hwp : d.claim_strategy_.wrapPoint 1 = j - (d.claim_strategy_.buffer_size_ : Int) := by
      unfold SingleThreadedClaimStrategy.wrapPoint wrapI64 toU64
      rw [hnext]
      omega
    obtain ⟨s, hs⟩ := nextEntry_returns 1 reads d.claim_strategy_
      ⟨g, hg, by rw [hwp]; simpa using hle⟩
    obtain ⟨r, hr⟩ := producerCycle_returns T d event reads s hs
    obtain ⟨s1, d2⟩ := r
    obtain ⟨h1, h2, h3, _⟩ := producerCycle_some T d d2 event reads s1 hr
    have hsj : s1 = j := by
      rw [h1, hnext]
      unfold wrapI64
      omega
    obtain ⟨r2, hr2⟩ := ih d2 (j + 1) (by rw [h2, hsj]; omega) (by omega) (by omega)
      (by rw [h3]; exact hcap)
      (by
        intro i c hc
        obtain ⟨g1, hg1, hle1⟩ := hroom (i + 1) c (by rw [List.getElem?_cons_succ]; exact hc)
        refine ⟨g1, hg1, ?_⟩
        rw [h3]
        push_cast at hle1
        omega)
    unfold producerCycles
    rw [hr]
    simp only
    rw [hr2]
    exact ⟨_, rfl⟩

/-- C14. Gap-free claiming from zero. On an engine whose last assigned sequence
and cursor are both `-1`, as after construction, a publishing loop of `k`
iterations `nextEntry()` / `getEntry(sequence)` / write / `commit(sequence)`
(with `k ≤ 2 ^ 63`, so that the sequences are `int64_t`) in which every
`nextEntry` is granted claims `0, 1, .., k - 1` in this order and leaves the
cursor and the last assigned sequence at `k - 1`. Every `nextEntry` is granted
when one of its readings of the gating values leaves room for its claim. More
generally `next(n)` returns and stores the previous `next_value_ + n`, wrapped
to `int64_t`, which is the exact sum whenever that is an `int64_t`. -/
theorem gap_free_claiming (T : Type) (d : Disruptor T) (cycles : List (T × List (List Int)))
    (hnext : d.claim_strategy_.next_value_ = -1) (hcursor : d.ring_buffer_.cursor_ = -1)
    (hk : (cycles.length : Int) ≤ 2 ^ 63) :
    (∀ sequences d1, producerCycles d cycles = some (sequences, d1) →
      sequences = (List.range cycles.length).map (fun i : Nat => (i : Int)) ∧
      d1.ring_buffer_.cursor_ = (cycles.length : Int) - 1 ∧
      d1.claim_strategy_.next_value_ = (cycles.length : Int) - 1) ∧
    ((d.claim_strategy_.buffer_size_ : Int) ≤ 2 ^ 63 →
      (∀ (i : Nat) (c : T × List (List Int)), cycles[i]? = some c →
        ∃ g ∈ c.2, (i : Int) - (d.claim_strategy_.buffer_size_ : Int) ≤
          SingleThreadedClaimStrategy.getMinimumSequence g) →
      ∃ r, producerCycles d cycles = some r) ∧
    (∀ (cs : SingleThreadedClaimStrategy) (n : Int),
      (cs.next n).1 = wrapI64 (cs.next_value_ + n) ∧
      (cs.next n).2 = { cs with next_value_ := (cs.next n).1 } ∧
      (-(2 : Int) ^ 63 ≤ cs.next_value_ + n → cs.next_value_ + n ≤ INT64_MAX →
        (cs.next n).1 = cs.next_value_ + n)) := by
  refine ⟨?_, ?_, ?_⟩
  · intro sequences d1 h
    obtain ⟨h1, h2, h3⟩ := producerCycles_spec T cycles d d1 0 sequences
      (by rw [hnext]; rfl) (by rw [hcursor]; rfl) (le_refl 0) (by omega) h
    refine ⟨?_, by rw [h2]; omega, by rw [h3]; omega⟩
    rw [h1]
    apply List.map_congr_left
    intro i _
    omega
  · intro hcap hroom
    apply producerCycles_returns T cycles d 0 (by rw [hnext]; rfl) (le_refl 0) (by omega) hcap
    intro i c hc
    obtain ⟨g, hg, hle⟩ := hroom i c hc
    exact ⟨g, hg, by omega⟩
  · intro cs n
    refine ⟨rfl, rfl, ?_⟩
    intro h1 h2
    show wrapI64 (cs.next_value_ + n) = cs.next_value_ + n
    unfold INT64_MAX at h2
    unfold wrapI64
    omega

/-- C14 on scenario S1: an engine of 1024 slots, 100,000 iterations writing
`i`, the single consumer having consumed up to `i - 1` when the `i`-th claim is
made. The sequences 0 to 99,999 are claimed and the cursor ends at 99,999. -/
theorem gap_free_claiming_witness :
    ∃ d : Disruptor Nat,
      Disruptor.new 1024 ClaimStrategyType.SINGLE_THREADED WaitStrategyType.YIELDING
        (DefaultEntryFactory Nat) = Except.ok d ∧
      d.claim_strategy_.next_value_ = -1 ∧ d.ring_buffer_.cursor_ = -1 ∧
      ∃ d1, producerCycles d
          ((List.range 100000).map fun i : Nat => (i, [[(i : Int) - 1]])) =
        some ((List.range 100000).map (fun i : Nat => (i : Int)), d1) ∧
        d1.ring_buffer_.cursor_ = 99999 ∧ d1.claim_strategy_.next_value_ = 99999 := by
  have hlen : ((List.range 100000).map fun i : Nat => (i, [[(i : Int) - 1]])).length =
      100000 := by
    rw [List.length_map, List.length_range]
  obtain ⟨hspec, hret, _⟩ := gap_free_claiming Nat
    ({ ring_buffer_ := RingBuffer.new 1024 (DefaultEntryFactory Nat)
       claim_strategy_ := SingleThreadedClaimStrategy.new
         (RingBuffer.new 1024 (DefaultEntryFactory Nat)).getBufferSize
       wait_strategy_ := WaitStrategyType.YIELDING
       producer_barrier_ := none
       consumers_ := []
       consumer_barriers_ := []
       gating_sequences_ := [] } : Disruptor Nat)
    ((List.range 100000).map fun i : Nat => (i, [[(i : Int) - 1]])) rfl rfl
    (by rw [hlen]; norm_num)
  have hcap : (RingBuffer.new 1024 (DefaultEntryFactory Nat)).getBufferSize = 1024 := by decide
  obtain ⟨r, hr⟩ := hret
    (by
      show (((RingBuffer.new 1024 (DefaultEntryFactory Nat)).getBufferSize : Nat) : Int) ≤ _
      rw [hcap]
      norm_num)
    (by
      intro i c hc
      obtain ⟨hi, hci⟩ := List.getElem?_eq_some.1 hc
      rw [hlen] at hi
      rw [List.getElem_map, List.getElem_range] at hci
      rw [← hci]
      refine ⟨[(i : Int) - 1], List.mem_singleton.2 rfl, ?_⟩
      show (i : Int) - (((RingBuffer.new 1024 (DefaultEntryFactory Nat)).getBufferSize : Nat) : Int)
        ≤ minimumLoop INT64_MAX [(i : Int) - 1]
      rw [hcap]
      unfold minimumLoop minimumLoop INT64_MAX
      rw [if_pos (by omega)]
      push_cast
      omega)
  obtain ⟨sequences, d1⟩ := r
  obtain ⟨h1, h2, h3⟩ := hspec sequences d1 hr
  rw [hlen] at h1 h2 h3
  refine ⟨{ ring_buffer_ := RingBuffer.new 1024 (DefaultEntryFactory Nat)
            claim_strategy_ := SingleThreadedClaimStrategy.new
              (RingBuffer.new 1024 (DefaultEntryFactory Nat)).getBufferSize
            wait_strategy_ := WaitStrategyType.YIELDING
            producer_barrier_ := none
            consumers_ := []
            consumer_barriers_ := []
            gating_sequences_ := [] }, rfl, rfl, rfl, d1, ?_, by rw [h2]; norm_num,
    by rw [h3]; norm_num⟩
  rw [hr, h1]

/-! ## Worker loop against the specification's loop -/

/-- Step 3 of the specification's loop with a handler that does not throw. -/
theorem specForEach_ok (T : Type) (rb : RingBuffer T) (handler : BatchHandler)
    (hno : ∀ call, handler.throws call = false) (available : Int) (range : List Int)
    (calls : List HandlerCall) :
    Consumer.specForEach rb handler available range calls =
      Except.ok (calls ++ range.map fun s =>
        { slot := rb.get s, sequence := s, end_of_batch := decide (s = available) }) := by
  induction range generalizing calls with
  | nil =>
    unfold Consumer.specForEach
    rw [List.map_nil, List.append_nil]
  | cons s later ih =>
    unfold Consumer.specForEach
    simp only [hno, Bool.false_eq_true, if_false]
    rw [ih, List.map_cons, List.append_assoc]
    rfl

/-- With a handler that does not throw and results that each exceed the one
before, the loop of `Consumer::run`, entered with `next_sequence` one above the
consumer's sequence, is the specification's loop. -/
theorem runLoop_eq_specLoop (T : Type) (rb : RingBuffer T) (handler : BatchHandler)
    (hno : ∀ call, handler.throws call = false) (results : List Int) (next : Int)
    (c : Consumer) (hnext : next = c.sequence_ + 1) (hlow : -(2 : Int) ^ 63 ≤ next)
    (hchain : List.Chain (fun a b : Int => a < b) c.sequence_ results)
    (hmax : ∀ a ∈ results, a < INT64_MAX) :
    Consumer.runLoop rb handler next c results =
      some (Consumer.specLoop rb handler c results) := by
  induction results generalizing next c with
  | nil => rfl
  | cons a later ih =>
    rw [List.chain_cons] at hchain
    obtain ⟨hlt, hchain⟩ := hchain
    have ha := hmax a (List.mem_cons_self _ _)
    have hd := deliver_ok T rb handler hno a ha (a - next + 1).toNat next c.calls hlow
      (by omega)
    have hget : Sequence.get c.sequence_ + 1 = next := by
      rw [hnext]
      rfl
    unfold Consumer.runLoop Consumer.specLoop
    simp only
    rw [hd, hget, specForEach_ok T rb handler hno, List.map_map]
    simp only
    exact ih (a + 1) _ (by simp [Sequence.set]) (by omega) hchain
      (fun x hx => hmax x (List.mem_cons_of_mem _ hx))

/-- A prefix of a chain is a chain. -/
theorem chain_take (R : Int → Int → Prop) (l : List Int) (a : Int) (k : Nat)
    (h : List.Chain R a l) : List.Chain R a (l.take k) := by
  induction l generalizing a k with
  | nil =>
    rw [List.take_nil]
    exact List.Chain.nil
  | cons b later ih =>
    cases k with
    | zero => exact List.Chain.nil
    | succ k =>
      rw [List.chain_cons] at h
      rw [List.take_succ_cons]
      exact List.Chain.cons h.1 (ih b k h.2)

/-- The arguments of `waitFor` in the specification's loop, handler not
throwing: each is one above the sequence stored before. -/
theorem specLoop_waits (T : Type) (rb : RingBuffer T) (handler : BatchHandler)
    (hno : ∀ call, handler.throws call = false) (results : List Int) (c : Consumer) :
    (Consumer.specLoop rb handler c results).waits =
      c.waits ++ ((c.sequence_ :: results).dropLast.map fun a => a + 1) ∧
    (Consumer.specLoop rb handler c results).sequence_ = results.getLastD c.sequence_ := by
  induction results generalizing c with
  | nil =>
    constructor
    · show c.waits = c.waits ++ _
      simp
    · rfl
  | cons a later ih =>
    unfold Consumer.specLoop
    simp only
    rw [specForEach_ok T rb handler hno]
    simp only
    obtain ⟨h1, h2⟩ := ih
      { c with waits := c.waits ++ [Sequence.get c.sequence_ + 1],
               calls := c.calls ++
                 ((List.range (a - (Sequence.get c.sequence_ + 1) + 1).toNat).map
                   fun i : Nat => Sequence.get c.sequence_ + 1 + (i : Int)).map fun s =>
                     { slot := rb.get s, sequence := s, end_of_batch := decide (s = a) },
               sequence_ := Sequence.set c.sequence_ a }
    constructor
    · rw [h1, List.dropLast_cons₂, List.map_cons, List.append_assoc]
      rfl
    · rw [h2, List.getLastD_cons]
      rfl

/-- C19. Worker-loop refinement. The specification's loop recomputes
`nextSequence` as `self.sequence.get() + 1` at the start of every iteration;
`Consumer::run` computes `next_sequence` once and increments it per delivered
entry. For a handler that does not throw, a consumer whose sequence is an
`int64_t` below the maximum, and `waitFor` results that each exceed the one
before (so each is at least the `next_sequence` asked for) and are below the
`int64_t` maximum, the run of the code ends in the state in which the
specification's worker ends, after the full list of results and after each of
its prefixes: the same arguments of `waitFor`, namely the stored sequence plus
one at the top of every iteration, the same `(entry, sequence, endOfBatch)`
invocations, and the same stored consumer sequence. -/
theorem worker_loop_refinement (T : Type) (rb : RingBuffer T) (handler : BatchHandler)
    (hno : ∀ call, handler.throws call = false) (c : Consumer) (results : List Int)
    (hlow : -(2 : Int) ^ 63 ≤ c.sequence_) (hhigh : c.sequence_ < INT64_MAX)
    (hchain : List.Chain (fun a b : Int => a < b) c.sequence_ results)
    (hmax : ∀ a ∈ results, a < INT64_MAX) :
    Consumer.run rb handler results c = some (Consumer.specRun rb handler results c) ∧
    (∀ k, Consumer.run rb handler (results.take k) c =
      some (Consumer.specRun rb handler (results.take k) c)) ∧
    (Consumer.specRun rb handler results c).waits =
      c.waits ++ ((c.sequence_ :: results).dropLast.map fun a => a + 1) ∧
    (Consumer.specRun rb handler results c).sequence_ = results.getLastD c.sequence_ := by
  have hwrap : wrapI64 (Sequence.get c.sequence_ + 1) = c.sequence_ + 1 := by
    unfold INT64_MAX at hhigh
    unfold wrapI64 Sequence.get
    omega
  have hrun : ∀ l : List Int, List.Chain (fun a b : Int => a < b) c.sequence_ l →
      (∀ a ∈ l, a < INT64_MAX) →
      Consumer.run rb handler l c = some (Consumer.specRun rb handler l c) := by
    intro l hl hlmax
    unfold Consumer.run Consumer.specRun
    simp only
    rw [hwrap, runLoop_eq_specLoop T rb handler hno l (c.sequence_ + 1) c rfl (by omega) hl hlmax]
  obtain ⟨hw, hs⟩ := specLoop_waits T rb handler hno results c
  refine ⟨hrun results hchain hmax, ?_, hw, hs⟩
  intro k
  exact hrun (results.take k) (chain_take _ results c.sequence_ k hchain)
    (fun a ha => hmax a (List.mem_of_mem_take ha))

/-- C19 on the two batches of scenario S4 from a new consumer: the code and the
specification's worker end in the same state, with `waitFor` called for 0 and
then for 10. -/
theorem worker_loop_refinement_witness :
    ((∀ call, (BatchHandler.mk fun _ => false).throws call = false) ∧
      -(2 : Int) ^ 63 ≤ Consumer.new.sequence_ ∧ Consumer.new.sequence_ < INT64_MAX ∧
      List.Chain (fun a b : Int => a < b) Consumer.new.sequence_ [9, 14] ∧
      (∀ a ∈ [(9 : Int), 14], a < INT64_MAX)) ∧
    (Option.map (fun c : Consumer => c.waits)
        (Consumer.run (RingBuffer.new 64 (DefaultEntryFactory Nat))
          (BatchHandler.mk fun _ => false) [9, 14] Consumer.new) = some [0, 10]) ∧
    (Consumer.run (RingBuffer.new 64 (DefaultEntryFactory Nat))
        (BatchHandler.mk fun _ => false) [9, 14] Consumer.new =
      some (Consumer.specRun (RingBuffer.new 64 (DefaultEntryFactory Nat))
        (BatchHandler.mk fun _ => false) [9, 14] Consumer.new) ∧
    (∀ k, Consumer.run (RingBuffer.new 64 (DefaultEntryFactory Nat))
        (BatchHandler.mk fun _ => false) ([(9 : Int), 14].take k) Consumer.new =
      some (Consumer.specRun (RingBuffer.new 64 (DefaultEntryFactory Nat))
        (BatchHandler.mk fun _ => false) ([(9 : Int), 14].take k) Consumer.new)) ∧
    (Consumer.specRun (RingBuffer.new 64 (DefaultEntryFactory Nat))
        (BatchHandler.mk fun _ => false) [9, 14] Consumer.new).waits =
      Consumer.new.waits ++
        ((Consumer.new.sequence_ :: [(9 : Int), 14]).dropLast.map fun a => a + 1) ∧
    (Consumer.specRun (RingBuffer.new 64 (DefaultEntryFactory Nat))
        (BatchHandler.mk fun _ => false) [9, 14] Consumer.new).sequence_ =
      [(9 : Int), 14].getLastD Consumer.new.sequence_) :=
  ⟨⟨fun _ => rfl, by decide, by decide,
      List.Chain.cons (by decide) (List.Chain.cons (by decide) List.Chain.nil), by decide⟩,
    by decide,
    worker_loop_refinement Nat (RingBuffer.new 64 (DefaultEntryFactory Nat))
      (BatchHandler.mk fun _ => false) (fun _ => rfl) Consumer.new [9, 14] (by decide)
      (by decide) (List.Chain.cons (by decide) (List.Chain.cons (by decide) List.Chain.nil))
      (by decide)⟩

/-! ## Handler faults -/

/-- The inner loop when the handler throws at `f`, not before: the sequences
from `next_sequence` to `f` are passed to the handler and the loop is left. -/
theorem deliver_thrown (T : Type) (rb : RingBuffer T) (handler : BatchHandler)
    (available f : Int) (hf : f ≤ available) (hmax : available ≤ INT64_MAX)
    (hok : ∀ call : HandlerCall, call.sequence < f → handler.throws call = false)
    (hthrow : handler.throws
      { slot := rb.get f, sequence := f, end_of_batch := decide (f = available) } = true)
    (n fuel : Nat) (next : Int) (calls : List HandlerCall)
    (hlow : -(2 : Int) ^ 63 ≤ next) (hn : next + n = f) (hfuel : n < fuel) :
    Consumer.deliver rb handler available fuel next calls =
      some (Delivery.thrown
        (calls ++ ((List.range n).map fun i : Nat =>
          ({ slot := rb.get (next + i), sequence := next + i,
             end_of_batch := decide (next + i = available) } : HandlerCall)) ++
          [{ slot := rb.get f, sequence := f, end_of_batch := decide (f = available) }])) := by
  induction n generalizing fuel next calls with
  | zero =>
    obtain ⟨fuel1, rfl⟩ : ∃ m, fuel = m + 1 := ⟨fuel - 1, by omega⟩
    have hnf : next = f := by omega
    subst hnf
    unfold Consumer.deliver
    rw [if_pos hf]
    simp only [ConsumerBarrier.getEntry, hthrow, if_true, List.range_zero, List.map_nil,
      List.append_nil]
  | succ n ih =>
    obtain ⟨fuel1, rfl⟩ : ∃ m, fuel = m + 1 := ⟨fuel - 1, by omega⟩
    unfold Consumer.deliver
    rw [if_pos (by omega)]
    have hnot : handler.throws
        { slot := ConsumerBarrier.getEntry rb next, sequence := next,
          end_of_batch := decide (next = available) } = false :=
      hok _ (by show next < f; omega)
    simp only [hnot, Bool.false_eq_true, if_false]
    have hw : wrapI64 (next + 1) = next + 1 := by
      unfold INT64_MAX at hmax
      unfold wrapI64
      omega
    rw [hw, ih fuel1 (next + 1) _ (by omega) (by omega) (by omega)]
    rw [List.range_succ_eq_map, List.map_cons, List.map_map]
    simp only [ConsumerBarrier.getEntry, List.append_assoc, List.singleton_append,
      List.cons_append, Function.comp_def, Nat.succ_eq_add_one, Nat.cast_add, Nat.cast_one,
      Nat.cast_zero, add_zero]
    have hcomm : ∀ i : Nat, next + 1 + (i : Int) = next + ((i : Int) + 1) := by
      intro i
      omega
    simp only [hcomm, List.nil_append]

/-- The inner loop over a batch on which the handler does not throw. -/
theorem deliver_ok_upto (T : Type) (rb : RingBuffer T) (handler : BatchHandler)
    (available : Int) (hmax : available < INT64_MAX)
    (hno : ∀ call : HandlerCall, call.sequence ≤ available → handler.throws call = false)
    (n : Nat) (next : Int) (calls : List HandlerCall)
    (hlow : -(2 : Int) ^ 63 ≤ next) (hn : next + n = available + 1) :
    Consumer.deliver rb handler available n next calls =
      some (Delivery.done (available + 1)
        (calls ++ (List.range n).map fun i : Nat =>
          { slot := rb.get (next + i), sequence := next + i,
            end_of_batch := decide (next + i = available) })) := by
  induction n generalizing next calls with
  | zero =>
    unfold Consumer.deliver
    rw [if_neg (by omega)]
    simp only [List.range_zero, List.map_nil, List.append_nil]
    have : next = available + 1 := by omega
    rw [this]
  | succ n ih =>
    unfold Consumer.deliver
    rw [if_pos (by omega)]
    have hnot : handler.throws
        { slot := ConsumerBarrier.getEntry rb next, sequence := next,
          end_of_batch := decide (next = available) } = false :=
      hno _ (by show next ≤ available; omega)
    simp only [hnot, Bool.false_eq_true, if_false]
    have hw : wrapI64 (next + 1) = next + 1 := by
      unfold INT64_MAX at hmax
      unfold wrapI64
      omega
    rw [hw, ih (next + 1) _ (by omega) (by omega)]
    rw [List.range_succ_eq_map, List.map_cons, List.map_map, List.append_assoc]
    simp only [ConsumerBarrier.getEntry, List.singleton_append, Function.comp_def,
      Nat.succ_eq_add_one, Nat.cast_add, Nat.cast_one, Nat.cast_zero, add_zero]
    have hcomm : ∀ i : Nat, next + 1 + (i : Int) = next + ((i : Int) + 1) := by
      intro i
      omega
    simp only [hcomm]

/-- One iteration of the outer loop. -/
theorem runLoop_cons (T : Type) (rb : RingBuffer T) (handler : BatchHandler)
    (next : Int) (c : Consumer) (available : Int) (later : List Int) :
    Consumer.runLoop rb handler next c (available :: later) =
      match Consumer.deliver rb handler available (available - next + 1).toNat next c.calls with
      | none => none
      | some (Delivery.thrown calls) => some { c with waits := c.waits ++ [next], calls := calls }
      | some (Delivery.done next1 calls) =>
        Consumer.runLoop rb handler next1
          { c with waits := c.waits ++ [next], calls := calls,
                   sequence_ := Sequence.set c.sequence_ available } later := rfl

/-- The outer loop over rounds that precede the sequence `f` at which the
handler first throws: they run to their end, deliver the sequences up to the
last of their results, and store it. -/
theorem runLoop_prefix (T : Type) (rb : RingBuffer T) (handler : BatchHandler) (f : Int)
    (hfmax : f ≤ INT64_MAX)
    (hok : ∀ call : HandlerCall, call.sequence < f → handler.throws call = false)
    (good : List Int) (next : Int) (c : Consumer)
    (hnext : next = c.sequence_ + 1) (hlow : -(2 : Int) ^ 63 ≤ next)
    (hchain : List.Chain (fun a b : Int => a < b) c.sequence_ good)
    (hbelow : ∀ a ∈ good, a < f) :
    ∃ c1, (∀ rest, Consumer.runLoop rb handler next c (good ++ rest) =
        Consumer.runLoop rb handler (c1.sequence_ + 1) c1 rest) ∧
      c1.sequence_ = good.getLastD c.sequence_ ∧ c.sequence_ ≤ c1.sequence_ ∧
      c1.calls.map (fun call => call.sequence) =
        c.calls.map (fun call => call.sequence) ++
          (List.range (c1.sequence_ - c.sequence_).toNat).map
            (fun i : Nat => c.sequence_ + 1 + (i : Int)) ∧
      c1.waits.length = c.waits.length + good.length ∧
      c1.completions = c.completions := by
  induction good generalizing next c with
  | nil =>
    refine ⟨c, fun rest => by rw [hnext]; rfl, rfl, le_refl _, ?_, rfl, rfl⟩
    simp
  | cons a later ih =>
    rw [List.chain_cons] at hchain
    obtain ⟨hlt, hchain⟩ := hchain
    have ha := hbelow a (List.mem_cons_self _ _)
    have hd := deliver_ok_upto T rb handler a (by unfold INT64_MAX at hfmax ⊢; omega)
      (fun call hcall => hok call (by omega)) (a - next + 1).toNat next c.calls hlow (by omega)
    obtain ⟨c1, h1, h2, h3, h4, h5, h6⟩ := ih (a + 1)
      { c with waits := c.waits ++ [next],
               calls := c.calls ++ (List.range (a - next + 1).toNat).map fun i : Nat =>
                 { slot := rb.get (next + i), sequence := next + i,
                   end_of_batch := decide (next + i = a) },
               sequence_ := Sequence.set c.sequence_ a }
      (by simp [Sequence.set]) (by omega) hchain
      (fun x hx => hbelow x (List.mem_cons_of_mem _ hx))
    have hseq : (Sequence.set c.sequence_ a) = a := rfl
    simp only [hseq] at h2 h3 h4
    refine ⟨c1, ?_, ?_, by omega, ?_, ?_, h6⟩
    · intro rest
      rw [List.cons_append, runLoop_cons, hd]
      exact h1 rest
    · rw [h2, List.getLastD_cons]
    · rw [h4, List.map_append, List.map_map, List.append_assoc]
      congr 1
      have hsplit : (c1.sequence_ - c.sequence_).toNat =
          (a - next + 1).toNat + (c1.sequence_ - a).toNat := by omega
      rw [hsplit, List.range_add, List.map_append, List.map_map]
      congr 1
      · apply List.map_congr_left
        intro i _
        simp only [Function.comp_def]
        omega
      · apply List.map_congr_left
        intro i _
        simp only [Function.comp_def]
        omega
    · simp only [List.length_append, List.length_singleton] at h5
      rw [h5, List.length_cons]
      omega

/-- The outer loop changes neither the count of `onCompletion` nor, by itself,
invokes it. -/
theorem runLoop_completions (T : Type) (rb : RingBuffer T) (handler : BatchHandler)
    (results : List Int) (next : Int) (c c1 : Consumer)
    (h : Consumer.runLoop rb handler next c results = some c1) :
    c1.completions = c.completions := by
  induction results generalizing next c with
  | nil =>
    unfold Consumer.runLoop at h
    rw [← Option.some.inj h]
  | cons a later ih =>
    unfold Consumer.runLoop at h
    cases hd : Consumer.deliver rb handler a (a - next + 1).toNat next c.calls with
    | none =>
      rw [hd] at h
      cases h
    | some r =>
      rw [hd] at h
      cases r with
      | done next1 calls =>
        simp only at h
        have h2 := ih _ _ h
        exact h2
      | thrown calls =>
        simp only [Option.some.injEq] at h
        rw [← h]

/-- The last of some results below `f`, or the start when there are none, is
below `f`. -/
theorem getLastD_lt (l : List Int) (s f : Int) (hs : s < f) (hl : ∀ a ∈ l, a < f) :
    l.getLastD s < f := by
  induction l generalizing s with
  | nil => exact hs
  | cons a later ih =>
    rw [List.getLastD_cons]
    exact ih a (hl a (List.mem_cons_self _ _)) (fun x hx => hl x (List.mem_cons_of_mem _ hx))

/-- C15. Handler fault handling. Let the handler's `onAvailable` throw at the
sequence `f` and at no earlier sequence, and let `Consumer::run` start from a
consumer whose sequence is an `int64_t` below `f`, pass through wait rounds
whose results are below `f` (each above the one before), and then meet a wait
round with `f ≤ available`. Then the run ends; the handler has been given the
sequences up to `f` and none after `f`, the invocation for `f` being the last;
`sequence_.set(available)` is not executed in that round, so the consumer's
sequence keeps the value it had before the round, which is below `f`; the loop
is left, whatever results would have followed; and `onCompletion` is invoked
once. A run whose loop ends because `running_` is read false likewise invokes
`onCompletion` once. -/
theorem handler_fault (T : Type) (rb : RingBuffer T) (handler : BatchHandler) (c : Consumer)
    (good : List Int) (available f : Int) (later : List Int)
    (hlow : -(2 : Int) ^ 63 ≤ c.sequence_) (hstart : c.sequence_ < f)
    (hchain : List.Chain (fun a b : Int => a < b) c.sequence_ good)
    (hbelow : ∀ a ∈ good, a < f) (hf : f ≤ available) (hmax : available ≤ INT64_MAX)
    (hok : ∀ call : HandlerCall, call.sequence < f → handler.throws call = false)
    (hthrow : handler.throws
      { slot := rb.get f, sequence := f, end_of_batch := decide (f = available) } = true) :
    ∃ c1, Consumer.run rb handler (good ++ available :: later) c = some c1 ∧
      c1.sequence_ = good.getLastD c.sequence_ ∧ c1.sequence_ < f ∧
      c1.calls.map (fun call => call.sequence) =
        c.calls.map (fun call => call.sequence) ++
          (List.range (f - c.sequence_).toNat).map (fun i : Nat => c.sequence_ + 1 + (i : Int)) ∧
      c1.calls.getLast? =
        some { slot := rb.get f, sequence := f, end_of_batch := decide (f = available) } ∧
      c1.waits.length = c.waits.length + good.length + 1 ∧
      c1.completions = c.completions + 1 ∧
      Consumer.run rb handler (good ++ [available]) c = some c1 ∧
      (∀ (results : List Int) (c0 c2 : Consumer),
        Consumer.run rb handler results c0 = some c2 →
        c2.completions = c0.completions + 1) := by
  have hfmax : f ≤ INT64_MAX := le_trans hf hmax
  have hwrap : wrapI64 (Sequence.get c.sequence_ + 1) = c.sequence_ + 1 := by
    unfold INT64_MAX at hfmax
    unfold wrapI64 Sequence.get
    omega
  obtain ⟨c1, h1, h2, h3, h4, h5, h6⟩ := runLoop_prefix T rb handler f hfmax hok good
    (c.sequence_ + 1) c rfl (by omega) hchain hbelow
  have hc1f : c1.sequence_ < f := by
    rw [h2]
    exact getLastD_lt good c.sequence_ f hstart hbelow
  have hd := deliver_thrown T rb handler available f hf hmax hok hthrow
    (f - (c1.sequence_ + 1)).toNat (available - (c1.sequence_ + 1) + 1).toNat
    (c1.sequence_ + 1) c1.calls (by omega) (by omega) (by omega)
  have hrun : ∀ rest, Consumer.run rb handler (good ++ available :: rest) c =
      some { sequence_ := c1.sequence_
             waits := c1.waits ++ [c1.sequence_ + 1]
             calls := c1.calls ++ ((List.range (f - (c1.sequence_ + 1)).toNat).map fun i : Nat =>
                 ({ slot := rb.get (c1.sequence_ + 1 + i), sequence := c1.sequence_ + 1 + i,
                    end_of_batch := decide (c1.sequence_ + 1 + i = available) } : HandlerCall)) ++
               [{ slot := rb.get f, sequence := f, end_of_batch := decide (f = available) }]
             completions := c1.completions + 1 } := by
    intro rest
    unfold Consumer.run
    simp only
    rw [hwrap, h1, runLoop_cons, hd]
  refine ⟨_, hrun later, h2, hc1f, ?_, ?_, ?_, ?_, hrun [], ?_⟩
  · simp only
    rw [List.map_append, List.map_append, h4, List.map_map, List.append_assoc,
      List.append_assoc]
    congr 1
    have hsplit : (f - c.sequence_).toNat =
        (c1.sequence_ - c.sequence_).toNat + ((f - (c1.sequence_ + 1)).toNat + 1) := by omega
    rw [hsplit, List.range_add, List.map_append, List.map_map, List.range_succ,
      List.map_append]
    congr 1
    congr 1
    · apply List.map_congr_left
      intro i _
      simp only [Function.comp_def]
      omega
    · simp only [List.map_cons, List.map_nil, Function.comp_def, List.cons.injEq, and_true]
      omega
  · simp only
    rw [List.getLast?_append]
    rfl
  · simp only [List.length_append, List.length_singleton]
    omega
  · simp only
    omega
  · intro results c0 c2 hrun2
    unfold Consumer.run at hrun2
    simp only at hrun2
    cases hl : Consumer.runLoop rb handler (wrapI64 (Sequence.get c0.sequence_ + 1)) c0
        results with
    | none =>
      rw [hl] at hrun2
      cases hrun2
    | some c3 =>
      rw [hl] at hrun2
      simp only [Option.some.injEq] at hrun2
      rw [← hrun2]
      show c3.completions + 1 = _
      rw [runLoop_completions T rb handler results _ c0 c3 hl]

/-- C15 on scenario S4 with a handler that throws at sequence 12: after the
batch `0 .. 9`, the round with `available = 14` delivers 10, 11 and 12; the
consumer's sequence stays at 9 and `onCompletion` is invoked once. -/
theorem handler_fault_witness :
    (-(2 : Int) ^ 63 ≤ Consumer.new.sequence_ ∧ Consumer.new.sequence_ < 12 ∧
      List.Chain (fun a b : Int => a < b) Consumer.new.sequence_ [9] ∧
      (∀ a ∈ [(9 : Int)], a < 12) ∧ (12 : Int) ≤ 14 ∧ (14 : Int) ≤ INT64_MAX ∧
      (∀ call : HandlerCall, call.sequence < 12 →
        (BatchHandler.mk fun call => decide (call.sequence = 12)).throws call = false) ∧
      (BatchHandler.mk fun call => decide (call.sequence = 12)).throws
        { slot := (RingBuffer.new 64 (DefaultEntryFactory Nat)).get 12, sequence := 12,
          end_of_batch := decide ((12 : Int) = 14) } = true) ∧
    (Consumer.run (RingBuffer.new 64 (DefaultEntryFactory Nat))
        (BatchHandler.mk fun call => decide (call.sequence = 12)) [9, 14, 20] Consumer.new =
      some { sequence_ := 9, waits := [0, 10],
             calls := ((List.range 13).map fun i : Nat =>
               ({ slot := i, sequence := i, end_of_batch := decide (i = 9) } : HandlerCall)),
             completions := 1 }) ∧
    ∃ c1, Consumer.run (RingBuffer.new 64 (DefaultEntryFactory Nat))
        (BatchHandler.mk fun call => decide (call.sequence = 12)) ([9] ++ 14 :: [20])
        Consumer.new = some c1 ∧
      c1.sequence_ = [(9 : Int)].getLastD Consumer.new.sequence_ ∧ c1.sequence_ < 12 ∧
      c1.calls.map (fun call => call.sequence) =
        Consumer.new.calls.map (fun call => call.sequence) ++
          (List.range ((12 : Int) - Consumer.new.sequence_).toNat).map
            (fun i : Nat => Consumer.new.sequence_ + 1 + (i : Int)) ∧
      c1.calls.getLast? =
        some { slot := (RingBuffer.new 64 (DefaultEntryFactory Nat)).get 12, sequence := 12,
               end_of_batch := decide ((12 : Int) = 14) } ∧
      c1.waits.length = Consumer.new.waits.length + [(9 : Int)].length + 1 ∧
      c1.completions = Consumer.new.completions + 1 ∧
      Consumer.run (RingBuffer.new 64 (DefaultEntryFactory Nat))
        (BatchHandler.mk fun call => decide (call.sequence = 12)) ([9] ++ [14])
        Consumer.new = some c1 ∧
      (∀ (results : List Int) (c0 c2 : Consumer),
        Consumer.run (RingBuffer.new 64 (DefaultEntryFactory Nat))
          (BatchHandler.mk fun call => decide (call.sequence = 12)) results c0 = some c2 →
        c2.completions = c0.completions + 1) :=
  ⟨⟨by decide, by decide, List.Chain.cons (by decide) List.Chain.nil, by decide, by decide,
      by decide,
      fun call hcall => decide_eq_false (by omega),
      by decide⟩,
    by decide,
    handler_fault Nat (RingBuffer.new 64 (DefaultEntryFactory Nat))
      (BatchHandler.mk fun call => decide (call.sequence = 12)) Consumer.new [9] 14 12 [20]
      (by decide) (by decide) (List.Chain.cons (by decide) List.Chain.nil) (by decide)
      (by decide) (by decide) (fun call hcall => decide_eq_false (by omega)) (by decide)⟩

/-! ## The cached gating minimum -/

/-- The minimum of the gating values does not decrease when no gating value
decreases. -/
theorem getMinimumSequence_mono (g g1 : List Int)
    (h : List.Forall₂ (fun old new => old ≤ new) g g1) :
    SingleThreadedClaimStrategy.getMinimumSequence g ≤
      SingleThreadedClaimStrategy.getMinimumSequence g1 := by
  unfold SingleThreadedClaimStrategy.getMinimumSequence
  apply le_minimumLoop g1 INT64_MAX _ (minimumLoop_le_init g INT64_MAX)
  intro y hy
  obtain ⟨x, hx, hxy⟩ := forall₂_le_mem g g1 h y hy
  exact le_trans (minimumLoop_le_mem g INT64_MAX x hx) hxy

/-- C21. The gating-minimum cache is sound. In every state of a
`SingleThreadedClaimStrategy` whose cached minimum is at most the minimum of
the gating values, `hasAvailableCapacity(n, gating)` answers, for every `n`,
what the uncached check of `MultiThreadedClaimStrategy::hasAvailableCapacity`
answers on the same buffer size and last assigned sequence, namely whether the
64-bit value of `nextValue + n - capacity` is at most the minimum of the gating
values; and afterwards the cached minimum is still at most that minimum, and at
most the minimum of any later gating values none of which has decreased. A new
strategy satisfies the condition when the gating values are at least `-1`. -/
theorem gating_cache_sound (cs : SingleThreadedClaimStrategy) (ms : MultiThreadedClaimStrategy)
    (n : Int) (gating : List Int)
    (hcache : cs.cached_value_ ≤ SingleThreadedClaimStrategy.getMinimumSequence gating)
    (hsize : ms.buffer_size_ = cs.buffer_size_) (hseq : ms.sequence_ = cs.next_value_) :
    (cs.hasAvailableCapacity n gating).1 = ms.hasAvailableCapacity n gating ∧
    (cs.hasAvailableCapacity n gating).1 =
      decide (wrapI64 (cs.next_value_ + n - (cs.buffer_size_ : Int)) ≤
        SingleThreadedClaimStrategy.getMinimumSequence gating) ∧
    (cs.hasAvailableCapacity n gating).2.cached_value_ ≤
      SingleThreadedClaimStrategy.getMinimumSequence gating ∧
    (∀ gating1 : List Int, List.Forall₂ (fun old new => old ≤ new) gating gating1 →
      (cs.hasAvailableCapacity n gating).2.cached_value_ ≤
        SingleThreadedClaimStrategy.getMinimumSequence gating1) ∧
    (∀ (size : Nat) (g : List Int), (∀ v ∈ g, -1 ≤ v) →
      (SingleThreadedClaimStrategy.new size).cached_value_ ≤
        SingleThreadedClaimStrategy.getMinimumSequence g) := by
  have hms : ms.hasAvailableCapacity n gating =
      decide (cs.wrapPoint n ≤ SingleThreadedClaimStrategy.getMinimumSequence gating) := by
    unfold MultiThreadedClaimStrategy.hasAvailableCapacity
      MultiThreadedClaimStrategy.getMinimumSequence SingleThreadedClaimStrategy.wrapPoint
      SingleThreadedClaimStrategy.getMinimumSequence Sequence.get
    simp only
    rw [hsize, hseq]
  have hcs : (cs.hasAvailableCapacity n gating).1 =
      decide (cs.wrapPoint n ≤ SingleThreadedClaimStrategy.getMinimumSequence gating) := by
    unfold SingleThreadedClaimStrategy.hasAvailableCapacity
    simp only
    by_cases h1 : cs.wrapPoint n > cs.cached_value_
    · rw [if_pos h1]
      by_cases h2 : cs.wrapPoint n > SingleThreadedClaimStrategy.getMinimumSequence gating
      · rw [if_pos h2, decide_eq_false (by omega)]
      · rw [if_neg h2, decide_eq_true (by omega)]
    · rw [if_neg h1, decide_eq_true (by omega)]
  have hkeep : (cs.hasAvailableCapacity n gating).2.cached_value_ ≤
      SingleThreadedClaimStrategy.getMinimumSequence gating := by
    obtain ⟨_, _, hc, _⟩ := hasAvailableCapacity_fields cs n gating
    rcases hc with hc | hc
    · rw [hc]
      exact hcache
    · rw [hc]
  refine ⟨by rw [hcs, hms], by rw [hcs, wrapPoint_eq], hkeep, ?_, ?_⟩
  · intro gating1 hadv
    exact le_trans hkeep (getMinimumSequence_mono gating gating1 hadv)
  · intro size g hg
    show (-1 : Int) ≤ minimumLoop INT64_MAX g
    exact le_minimumLoop g INT64_MAX (-1) (by decide) hg

/-- C21 on a strategy of capacity 4 that has assigned up to 3 and caches `-1`,
with one gating sequence: at the gating value 1 a claim of two is granted by
both checks, at the gating value 0 it is refused by both. -/
theorem gating_cache_sound_witness :
    ((SingleThreadedClaimStrategy.mk 4 3 (-1)).cached_value_ ≤
        SingleThreadedClaimStrategy.getMinimumSequence [1] ∧
      (MultiThreadedClaimStrategy.mk 4 3).buffer_size_ =
        (SingleThreadedClaimStrategy.mk 4 3 (-1)).buffer_size_ ∧
      (MultiThreadedClaimStrategy.mk 4 3).sequence_ =
        (SingleThreadedClaimStrategy.mk 4 3 (-1)).next_value_) ∧
    (((SingleThreadedClaimStrategy.mk 4 3 (-1)).hasAvailableCapacity 2 [1]).1 = true ∧
      (MultiThreadedClaimStrategy.mk 4 3).hasAvailableCapacity 2 [1] = true ∧
      ((SingleThreadedClaimStrategy.mk 4 3 (-1)).hasAvailableCapacity 2 [0]).1 = false ∧
      (MultiThreadedClaimStrategy.mk 4 3).hasAvailableCapacity 2 [0] = false) ∧
    (((SingleThreadedClaimStrategy.mk 4 3 (-1)).hasAvailableCapacity 2 [1]).1 =
      (MultiThreadedClaimStrategy.mk 4 3).hasAvailableCapacity 2 [1] ∧
    ((SingleThreadedClaimStrategy.mk 4 3 (-1)).hasAvailableCapacity 2 [1]).1 =
      decide (wrapI64 ((SingleThreadedClaimStrategy.mk 4 3 (-1)).next_value_ + 2 -
          (((SingleThreadedClaimStrategy.mk 4 3 (-1)).buffer_size_ : Nat) : Int)) ≤
        SingleThreadedClaimStrategy.getMinimumSequence [1]) ∧
    ((SingleThreadedClaimStrategy.mk 4 3 (-1)).hasAvailableCapacity 2 [1]).2.cached_value_ ≤
      SingleThreadedClaimStrategy.getMinimumSequence [1] ∧
    (∀ gating1 : List Int, List.Forall₂ (fun old new => old ≤ new) [1] gating1 →
      ((SingleThreadedClaimStrategy.mk 4 3 (-1)).hasAvailableCapacity 2 [1]).2.cached_value_ ≤
        SingleThreadedClaimStrategy.getMinimumSequence gating1) ∧
    (∀ (size : Nat) (g : List Int), (∀ v ∈ g, -1 ≤ v) →
      (SingleThreadedClaimStrategy.new size).cached_value_ ≤
        SingleThreadedClaimStrategy.getMinimumSequence g)) :=
  ⟨⟨by decide, by decide, by decide⟩, ⟨by decide, by decide, by decide, by decide⟩,
    gating_cache_sound (SingleThreadedClaimStrategy.mk 4 3 (-1))
      (MultiThreadedClaimStrategy.mk 4 3) 2 [1] (by decide) (by decide) (by decide)⟩

/-! ## Empty gating set -/

/-- A capacity check on an empty gating set is granted, and stores the maximum
`int64_t` when it takes the slow path. -/
theorem hasAvailableCapacity_nil (cs : SingleThreadedClaimStrategy) (n : Int) :
    cs.hasAvailableCapacity n [] =
      (true, if cs.wrapPoint n > cs.cached_value_ then { cs with cached_value_ := INT64_MAX }
        else cs) := by
  have hle : cs.wrapPoint n ≤ INT64_MAX := by
    unfold SingleThreadedClaimStrategy.wrapPoint wrapI64 INT64_MAX
    omega
  unfold SingleThreadedClaimStrategy.hasAvailableCapacity
  simp only
  by_cases h1 : cs.wrapPoint n > cs.cached_value_
  · rw [if_pos h1, if_pos h1]
    have hmin : SingleThreadedClaimStrategy.getMinimumSequence [] = INT64_MAX := rfl
    rw [hmin, if_neg (by omega)]
  · rw [if_neg h1, if_neg h1]

/-- C22. Empty gating set means no backpressure. With an empty gating list
`getMinimumSequence` returns the maximum `int64_t`, so for every state and every
`n` (overflowing or not) `hasAvailableCapacity(n, [])` returns true; on the slow
path it sets the cached minimum to that maximum, and once the cached minimum is
that maximum every later check, whatever it is given, takes the fast path and
`next` keeps it so. Hence `nextEntry(n)` of a producer barrier without gating
sequences returns at its first check. On an engine as constructed whose
capacity is a power of two, a publishing loop of any length up to `2 ^ 63`
completes without a consumer, and the sequences `s` and `s + capacity` it claims
go to the same slot. -/
theorem empty_gating_no_backpressure (cs : SingleThreadedClaimStrategy) (n : Int)
    (later : List (List Int)) :
    SingleThreadedClaimStrategy.getMinimumSequence [] = INT64_MAX ∧
    (cs.hasAvailableCapacity n []).1 = true ∧
    (cs.cached_value_ < cs.wrapPoint n →
      (cs.hasAvailableCapacity n []).2 = { cs with cached_value_ := INT64_MAX }) ∧
    (cs.wrapPoint n ≤ cs.cached_value_ → (cs.hasAvailableCapacity n []).2 = cs) ∧
    (cs.cached_value_ = INT64_MAX →
      ∀ (m : Int) (g : List Int), cs.hasAvailableCapacity m g = (true, cs) ∧
        (cs.next m).2.cached_value_ = INT64_MAX) ∧
    ProducerBarrier.nextEntry n cs ([] :: later) =
      (some (wrapI64 (cs.next_value_ + n)), ((cs.hasAvailableCapacity n []).2.next n).2) ∧
    (∀ (T : Type) (d : Disruptor T) (events : List T) (k : Nat),
      d.claim_strategy_.next_value_ = -1 → d.ring_buffer_.cursor_ = -1 →
      k ≤ 63 → d.ring_buffer_.buffer_size_ = 2 ^ k →
      d.ring_buffer_.index_mask_ = decU64 d.ring_buffer_.buffer_size_ →
      d.claim_strategy_.buffer_size_ = d.ring_buffer_.getBufferSize →
      (events.length : Int) ≤ 2 ^ 63 →
      ∃ d1, producerCycles d (events.map fun e => (e, [[]])) =
          some ((List.range events.length).map (fun i : Nat => (i : Int)), d1) ∧
        d1.ring_buffer_.cursor_ = (events.length : Int) - 1 ∧
        ∀ s : Int, d.ring_buffer_.get (s + (d.ring_buffer_.getBufferSize : Int)) =
          d.ring_buffer_.get s) := by
  have hnil := hasAvailableCapacity_nil cs n
  refine ⟨rfl, by rw [hnil], ?_, ?_, ?_, ?_, ?_⟩
  · intro h
    rw [hnil]
    simp only
    rw [if_pos (by omega)]
  · intro h
    rw [hnil]
    simp only
    rw [if_neg (by omega)]
  · intro hc m g
    have hle : cs.wrapPoint m ≤ INT64_MAX := by
      unfold SingleThreadedClaimStrategy.wrapPoint wrapI64 INT64_MAX
      omega
    constructor
    · unfold SingleThreadedClaimStrategy.hasAvailableCapacity
      simp only
      rw [if_neg (by omega)]
    · exact hc
  · unfold ProducerBarrier.nextEntry
    simp only
    rw [if_pos (by rw [hnil])]
    have hnv := (hasAvailableCapacity_fields cs n []).2.1
    show (some (wrapI64 ((cs.hasAvailableCapacity n []).2.next_value_ + n)), _) = _
    rw [hnv]
  · intro T d events k hnext hcursor hk hsize hmask hcs hlen
    have hcap : (d.claim_strategy_.buffer_size_ : Int) ≤ 2 ^ 63 := by
      rw [hcs]
      show ((d.ring_buffer_.buffer_size_ : Nat) : Int) ≤ 2 ^ 63
      rw [hsize]
      push_cast
      exact pow_le_pow_right₀ (by norm_num) hk
    have hlen1 : (events.map fun e : T => (e, [([] : List Int)])).length = events.length :=
      List.length_map _ _
    obtain ⟨r, hr⟩ := producerCycles_returns T (events.map fun e => (e, [[]])) d 0
      (by rw [hnext]; rfl) (le_refl 0) (by rw [hlen1]; omega) hcap
      (by
        intro i c hc
        have hi : i < events.length := by
          have := (List.getElem?_eq_some.1 hc).1
          rw [hlen1] at this
          exact this
        obtain ⟨e, _, he⟩ := List.mem_map.1 (List.getElem?_mem hc)
        rw [← he]
        refine ⟨[], List.mem_singleton.2 rfl, ?_⟩
        show (0 : Int) + (i : Int) - (d.claim_strategy_.buffer_size_ : Int) ≤ INT64_MAX
        unfold INT64_MAX
        omega)
    obtain ⟨sequences, d1⟩ := r
    obtain ⟨h1, h2, _⟩ := producerCycles_spec T (events.map fun e => (e, [[]])) d d1 0
      sequences (by rw [hnext]; rfl) (by rw [hcursor]; rfl) (le_refl 0)
      (by rw [hlen1]; omega) hr
    rw [hlen1] at h1 h2
    refine ⟨d1, ?_, by rw [h2]; omega, ?_⟩
    · rw [hr, h1]
      congr 2
      apply List.map_congr_left
      intro i _
      omega
    · intro s
      have hmask1 : d.ring_buffer_.index_mask_ = 2 ^ k - 1 := by
        rw [hmask, hsize, decU64_two_pow]
      have hcapI : (d.ring_buffer_.getBufferSize : Int) = 2 ^ k := by
        show ((d.ring_buffer_.buffer_size_ : Nat) : Int) = 2 ^ k
        rw [hsize]
        push_cast
        rfl
      have hem := get_eq_emod T d.ring_buffer_ k (by omega) hmask1
      rw [hcapI]
      have h3 := hem (s + 2 ^ k)
      rw [Int.add_emod_self, ← hem s] at h3
      exact Int.ofNat_inj.1 h3

/-- C22 on an engine of 4 slots without consumers: the first check of a new
strategy for a claim of 5 takes the slow path and caches the maximum, and the
publishing loop writes the events 10 to 14 without waiting, the last one over
the slot of the first, which nobody has read. -/
theorem empty_gating_no_backpressure_witness :
    (Option.map (fun r : List Int × Disruptor Nat => (r.1, r.2.ring_buffer_.entries_))
        (producerCycles
          ({ ring_buffer_ := RingBuffer.new 4 (DefaultEntryFactory Nat)
             claim_strategy_ := SingleThreadedClaimStrategy.new 4
             wait_strategy_ := WaitStrategyType.YIELDING
             producer_barrier_ := none
             consumers_ := []
             consumer_barriers_ := []
             gating_sequences_ := [] } : Disruptor Nat)
          ([10, 11, 12, 13, 14].map fun e => (e, [[]]))) =
      some ([0, 1, 2, 3, 4], [14, 11, 12, 13])) ∧
    (SingleThreadedClaimStrategy.new 4).hasAvailableCapacity 5 [] =
      (true, { buffer_size_ := 4, next_value_ := -1, cached_value_ := INT64_MAX }) ∧
    ProducerBarrier.nextEntry 5 (SingleThreadedClaimStrategy.new 4) [[]] =
      (some 4, { buffer_size_ := 4, next_value_ := 4, cached_value_ := INT64_MAX }) ∧
    (SingleThreadedClaimStrategy.getMinimumSequence [] = INT64_MAX ∧
      ((SingleThreadedClaimStrategy.new 4).hasAvailableCapacity 5 []).1 = true) := by
  have h := empty_gating_no_backpressure (SingleThreadedClaimStrategy.new 4) 5 []
  exact ⟨by decide, by decide, by decide, h.1, h.2.1⟩

end disruptor
